import Mathlib

/-!
Verification of `comint-mime.py` (the Python support file of the comint-mime
repository).  The Python functions are embedded shallowly: byte strings become
`List Nat` (each entry below 256), Python strings become Lean `String`/`List Char`,
JSON values become the inductive `JValue`, and the side effects of `print_osc`
(the bytes printed to stdout and the temporary file written on the spill path)
are returned explicitly in an `OscResult` record.
-/

namespace ComintMime

/-! ## Base64 (model of `base64.encodebytes` and standard base64 decoding) -/
/-- The 64-character standard base64 alphabet used by `binascii.b2a_base64`. -/
def b64alphabet : List Char :=
  "ABCDEFGHIJKLMNOPQRSTUVWXYZabcdefghijklmnopqrstuvwxyz0123456789+/".toList

/-- Alphabet character for a 6-bit value (out-of-range values, which cannot
arise from byte input, fall back to the first letter). -/
def b64char (n : Nat) : Char := b64alphabet.getD n 'A'

/-- Whether a character belongs to the base64 alphabet proper (padding and
newlines excluded). -/
def isB64 (c : Char) : Bool := b64alphabet.contains c

/-- Base64-encode one chunk with trailing padding, following
`binascii.b2a_base64`: three input bytes become four alphabet characters, a
two-byte tail three characters plus one padding sign, a one-byte tail two
characters plus two padding signs. -/
def encChunk : List Nat → List Char
  | a :: b :: c :: rest =>
      b64char (a / 4) :: b64char ((a % 4) * 16 + b / 16) ::
      b64char ((b % 16) * 4 + c / 64) :: b64char (c % 64) :: encChunk rest
  | [a, b] => [b64char (a / 4), b64char ((a % 4) * 16 + b / 16),
      b64char ((b % 16) * 4), '=']
  | [a] => [b64char (a / 4), b64char ((a % 4) * 16), '=', '=']
  | [] => []

/-- Model of `base64.encodebytes`, fuelled so that it computes by `decide`/`rfl`:
the input is split into 57-byte chunks and each chunk is passed through
`binascii.b2a_base64`, i.e. base64-encoded and terminated by a newline
(so lines are 76 columns and the output of a nonempty input ends in a newline).
The fuel is instantiated with the length of the input, which bounds the number
of chunks. -/
def encodebytesAux : Nat → List Nat → List Char
  | 0, _ => []
  | _, [] => []
  | fuel + 1, d => encChunk (d.take 57) ++ '\n' :: encodebytesAux fuel (d.drop 57)

/-- Model of `base64.encodebytes` on a byte string. -/
def encodebytes (d : List Nat) : List Char := encodebytesAux d.length d

/-- Base64 encoding without padding or line structure: the pure sextet stream
of a byte string, rendered in the alphabet. -/
def enc3 : List Nat → List Char
  | a :: b :: c :: rest =>
      b64char (a / 4) :: b64char ((a % 4) * 16 + b / 16) ::
      b64char ((b % 16) * 4 + c / 64) :: b64char (c % 64) :: enc3 rest
  | [a, b] => [b64char (a / 4), b64char ((a % 4) * 16 + b / 16), b64char ((b % 16) * 4)]
  | [a] => [b64char (a / 4), b64char ((a % 4) * 16)]
  | [] => []

/-- Value of an alphabet character (position in the alphabet). -/
def b64val (c : Char) : Nat := b64alphabet.indexOf c

/-- Decode a stream of sextet values back into bytes: four sextets yield three
bytes, a three-sextet tail two bytes, a two-sextet tail one byte. -/
def decSextets : List Nat → List Nat
  | a :: b :: c :: d :: rest =>
      (a * 4 + b / 16) :: ((b % 16) * 16 + c / 4) :: ((c % 4) * 64 + d) :: decSextets rest
  | [a, b, c] => [a * 4 + b / 16, (b % 16) * 16 + c / 4]
  | [a, b] => [a * 4 + b / 16]
  | _ => []

/-- Standard base64 decoding of a character stream: characters outside the
alphabet (newlines, padding) are ignored, as `base64.decodebytes` does, and the
remaining sextets are recombined into bytes. -/
def b64decode (s : List Char) : List Nat :=
  decSextets ((s.filter isB64).map b64val)

/-! ## JSON values and the model of `json.dumps` (default options) -/
/-- JSON-compatible Python values handled by `json.dumps` in this program:
`None`, booleans, integers, strings, lists and string-keyed dictionaries
(floating-point numbers do not occur in the program and are not modelled). -/
inductive JValue : Type where
  | null : JValue
  | bool : Bool → JValue
  | int : Int → JValue
  | str : String → JValue
  | arr : List JValue → JValue
  | obj : List (String × JValue) → JValue

/-- Lowercase hexadecimal digits, as emitted in the `\uXXXX` escapes of
`json.dumps`. -/
def hexDigits : List Char := "0123456789abcdef".toList

/-- Hexadecimal digit character of a value below 16. -/
def hexDig (n : Nat) : Char := hexDigits.getD n '0'

/-- Four-digit lowercase hexadecimal rendering of a value below 0x10000. -/
def hex4 (n : Nat) : List Char :=
  [hexDig (n / 4096 % 16), hexDig (n / 256 % 16), hexDig (n / 16 % 16), hexDig (n % 16)]

/-- Escape one character the way the default (`ensure_ascii`) string encoder of
`json.dumps` does: backslash, double quote and the five classic control
characters get two-character escapes, other printable ASCII stays verbatim, and
everything else becomes `\uXXXX` (one escape for code points below 0x10000, a
surrogate pair for the rest). -/
def escChar (c : Char) : List Char :=
  if c = '"' then ['\\', '"']
  else if c = '\\' then ['\\', '\\']
  else if c = '\n' then ['\\', 'n']
  else if c = '\r' then ['\\', 'r']
  else if c = '\t' then ['\\', 't']
  else if c.toNat = 8 then ['\\', 'b']
  else if c.toNat = 12 then ['\\', 'f']
  else if 0x20 ≤ c.toNat ∧ c.toNat ≤ 0x7E then [c]
  else if c.toNat < 0x10000 then '\\' :: 'u' :: hex4 c.toNat
  else
    '\\' :: 'u' :: hex4 (0xD800 + (c.toNat - 0x10000) / 1024) ++
      ('\\' :: 'u' :: hex4 (0xDC00 + (c.toNat - 0x10000) % 1024))

/-- Escape every character of a string body. -/
def escString : List Char → List Char
  | [] => []
  | c :: rest => escChar c ++ escString rest

/-- JSON string literal for a character sequence. -/
def quoteString (s : List Char) : List Char := '"' :: escString s ++ ['"']

/-- Decimal digit characters of a natural number, most significant first,
fuelled so that it computes by `rfl` (the fuel is instantiated with the number
itself, which bounds the number of divisions by ten). -/
def natDigitsAux : Nat → Nat → List Char
  | 0, n => [hexDig (n % 10)]
  | fuel + 1, n =>
      if n < 10 then [hexDig n]
      else natDigitsAux fuel (n / 10) ++ [hexDig (n % 10)]

/-- Decimal rendering of a natural number, as `repr` does for Python ints. -/
def natDigits (n : Nat) : List Char := natDigitsAux n n

/-- Decimal rendering of an integer, as `json.dumps` emits Python ints. -/
def intRepr (i : Int) : List Char :=
  if i < 0 then '-' :: natDigits i.natAbs else natDigits i.natAbs

mutual

/-- Characters produced by `json.dumps` with its default options: separators
`", "` and `": "`, `ensure_ascii` string escaping, insertion-ordered object
members. -/
def dumpsVal : JValue → List Char
  | .null => ['n', 'u', 'l', 'l']
  | .bool b => if b then ['t', 'r', 'u', 'e'] else ['f', 'a', 'l', 's', 'e']
  | .int i => intRepr i
  | .str s => quoteString s.data
  | .arr [] => ['[', ']']
  | .arr (v :: vs) => '[' :: (dumpsVal v ++ dumpsArrTail vs) ++ [']']
  | .obj [] => ['{', '}']
  | .obj (kv :: kvs) => '{' :: (dumpsMember kv ++ dumpsObjTail kvs) ++ ['}']

/-- One `"key": value` member of a JSON object. -/
def dumpsMember : String × JValue → List Char
  | (k, v) => quoteString k.data ++ ':' :: ' ' :: dumpsVal v

/-- Remaining array elements, each preceded by the `", "` separator. -/
def dumpsArrTail : List JValue → List Char
  | [] => []
  | v :: vs => ',' :: ' ' :: (dumpsVal v ++ dumpsArrTail vs)

/-- Remaining object members, each preceded by the `", "` separator. -/
def dumpsObjTail : List (String × JValue) → List Char
  | [] => []
  | kv :: kvs => ',' :: ' ' :: (dumpsMember kv ++ dumpsObjTail kvs)

end

/-- Model of `json.dumps` with default options, as a string. -/
def jsonDumps (v : JValue) : String := String.mk (dumpsVal v)

/-! ## A parser of the canonical `json.dumps` output

The wire format consumer parses the emitted header back as JSON; the parser
below accepts exactly the canonical form produced by `jsonDumps` (separators
`", "` and `": "`, escape sequences as emitted by `ensure_ascii`). -/
/-- Value of one hexadecimal digit character. -/
def hexVal (c : Char) : Option Nat :=
  if '0' ≤ c ∧ c ≤ '9' then some (c.toNat - 48)
  else if 'a' ≤ c ∧ c ≤ 'f' then some (c.toNat - 87)
  else if 'A' ≤ c ∧ c ≤ 'F' then some (c.toNat - 55)
  else none

/-- Value of a four-digit hexadecimal escape body. -/
def hex4val (a b c d : Char) : Option Nat :=
  (hexVal a).bind fun x => (hexVal b).bind fun y =>
    (hexVal c).bind fun z => (hexVal d).map fun w =>
      ((x * 16 + y) * 16 + z) * 16 + w

/-- Read the low-surrogate escape that must follow a high surrogate `n`;
the pair denotes one astral code point. -/
def readLowSurrogate (n : Nat) : List Char → Option (Char × List Char)
  | '\\' :: 'u' :: a :: b :: c :: d :: rest =>
      (hex4val a b c d).bind fun m =>
        if 0xDC00 ≤ m ∧ m < 0xE000 then
          some (Char.ofNat (0x10000 + (n - 0xD800) * 1024 + (m - 0xDC00)), rest)
        else none
  | _ => none

/-- Read one escape sequence (the part after the backslash), returning the
character it denotes and the remaining input. -/
def readEsc : List Char → Option (Char × List Char)
  | 'u' :: a :: b :: c :: d :: rest =>
      (hex4val a b c d).bind fun n =>
        if 0xD800 ≤ n ∧ n < 0xDC00 then readLowSurrogate n rest
        else some (Char.ofNat n, rest)
  | c :: rest =>
      if c = '"' then some ('"', rest)
      else if c = '\\' then some ('\\', rest)
      else if c = '/' then some ('/', rest)
      else if c = 'b' then some (Char.ofNat 8, rest)
      else if c = 'f' then some (Char.ofNat 12, rest)
      else if c = 'n' then some ('\n', rest)
      else if c = 'r' then some ('\r', rest)
      else if c = 't' then some ('\t', rest)
      else none
  | [] => none

/-- Read a string body up to the closing quote, undoing the escapes.  The fuel
is instantiated with the length of the input, which bounds the number of
characters produced. -/
def parseStrBody : Nat → List Char → Option (List Char × List Char)
  | 0, _ => none
  | fuel + 1, cs =>
      match cs with
      | [] => none
      | c :: rest =>
          if c = '"' then some ([], rest)
          else if c = '\\' then
            (readEsc rest).bind fun cr =>
              (parseStrBody fuel cr.2).bind fun sr => some (cr.1 :: sr.1, sr.2)
          else
            (parseStrBody fuel rest).bind fun sr => some (c :: sr.1, sr.2)

/-- Whether a character is a decimal digit. -/
def isDigitCh (c : Char) : Bool := decide ('0' ≤ c ∧ c ≤ '9')

/-- Read a run of decimal digits, accumulating their value. -/
def parseDigitsAcc : Nat → List Char → Nat × List Char
  | acc, [] => (acc, [])
  | acc, c :: rest =>
      if isDigitCh c then parseDigitsAcc (acc * 10 + (c.toNat - 48)) rest
      else (acc, c :: rest)

mutual

/-- Parse one canonical JSON value.  The fuel bounds the nesting structure;
`jsonParse` instantiates it with the input length plus one. -/
def parseV : Nat → List Char → Option (JValue × List Char)
  | 0, _ => none
  | fuel + 1, cs =>
      match cs with
      | [] => none
      | c :: cs' =>
          if isDigitCh c then
            some (.int (Int.ofNat (parseDigitsAcc 0 (c :: cs')).1),
              (parseDigitsAcc 0 (c :: cs')).2)
          else if c = '-' then
            match cs' with
            | [] => none
            | c2 :: cs'' =>
                if isDigitCh c2 then
                  some (.int (-((parseDigitsAcc 0 (c2 :: cs'')).1 : Int)),
                    (parseDigitsAcc 0 (c2 :: cs'')).2)
                else none
          else if c = '"' then
            (parseStrBody cs'.length cs').bind fun sr =>
              some (.str (String.mk sr.1), sr.2)
          else if c = '[' then
            if cs'.head? = some ']' then some (.arr [], cs'.tail)
            else (parseItems fuel cs').bind fun vr => some (.arr vr.1, vr.2)
          else if c = '{' then
            if cs'.head? = some '}' then some (.obj [], cs'.tail)
            else (parseMembers fuel cs').bind fun kr => some (.obj kr.1, kr.2)
          else if c = 'n' then
            match cs' with
            | 'u' :: 'l' :: 'l' :: r => some (.null, r)
            | _ => none
          else if c = 't' then
            match cs' with
            | 'r' :: 'u' :: 'e' :: r => some (.bool true, r)
            | _ => none
          else if c = 'f' then
            match cs' with
            | 'a' :: 'l' :: 's' :: 'e' :: r => some (.bool false, r)
            | _ => none
          else none

/-- Parse the elements of a nonempty array, consuming the closing bracket. -/
def parseItems : Nat → List Char → Option (List JValue × List Char)
  | 0, _ => none
  | fuel + 1, cs =>
      (parseV fuel cs).bind fun vr =>
        match vr.2 with
        | ']' :: r2 => some ([vr.1], r2)
        | ',' :: ' ' :: r2 =>
            (parseItems fuel r2).bind fun tr => some (vr.1 :: tr.1, tr.2)
        | _ => none

/-- Parse the members of a nonempty object, consuming the closing brace. -/
def parseMembers : Nat → List Char → Option (List (String × JValue) × List Char)
  | 0, _ => none
  | fuel + 1, cs =>
      match cs with
      | '"' :: cs' =>
          (parseStrBody cs'.length cs').bind fun kr =>
            match kr.2 with
            | ':' :: ' ' :: r2 =>
                (parseV fuel r2).bind fun vr =>
                  match vr.2 with
                  | '}' :: r4 => some ([(String.mk kr.1, vr.1)], r4)
                  | ',' :: ' ' :: r4 =>
                      (parseMembers fuel r4).bind fun tr =>
                        some ((String.mk kr.1, vr.1) :: tr.1, tr.2)
                  | _ => none
            | _ => none
      | _ => none

end

/-- Parse a complete canonical JSON document (no trailing input allowed). -/
def jsonParse (s : String) : Option JValue :=
  (parseV (s.length + 1) s.data).bind fun vr =>
    if vr.2 = [] then some vr.1 else none

mutual

/-- Fuel sufficient for `parseV` to parse the rendering of a value. -/
def jfuel : JValue → Nat
  | .null => 1
  | .bool _ => 1
  | .int _ => 1
  | .str _ => 1
  | .arr vs => jfuelItems vs + 1
  | .obj kvs => jfuelMembers kvs + 1

/-- Fuel sufficient for `parseItems` to parse rendered array elements. -/
def jfuelItems : List JValue → Nat
  | [] => 0
  | v :: vs => max (jfuel v) (jfuelItems vs) + 1

/-- Fuel sufficient for `parseMembers` to parse rendered object members. -/
def jfuelMembers : List (String × JValue) → Nat
  | [] => 0
  | (_, v) :: kvs => max (jfuel v) (jfuelMembers kvs) + 1

end

/-- Whether a character sequence does not start with a decimal digit (the
canonical tail following a rendered number never does). -/
def headNotDigit : List Char → Prop
  | [] => True
  | c :: _ => isDigitCh c = false

/-! ## UTF-8 (model of `str.encode` and `bytes.decode`) -/
/-- UTF-8 encoding of one character. -/
def utf8Char (c : Char) : List Nat :=
  if c.toNat < 0x80 then [c.toNat]
  else if c.toNat < 0x800 then [0xC0 + c.toNat / 64, 0x80 + c.toNat % 64]
  else if c.toNat < 0x10000 then
    [0xE0 + c.toNat / 4096, 0x80 + c.toNat / 64 % 64, 0x80 + c.toNat % 64]
  else
    [0xF0 + c.toNat / 0x40000, 0x80 + c.toNat / 4096 % 64,
      0x80 + c.toNat / 64 % 64, 0x80 + c.toNat % 64]

/-- UTF-8 encoding of a character sequence. -/
def utf8Chars : List Char → List Nat
  | [] => []
  | c :: rest => utf8Char c ++ utf8Chars rest

/-- Model of Python `str.encode`: the UTF-8 bytes of a string. -/
def strEncode (s : String) : List Nat := utf8Chars s.data

/-- Fuelled UTF-8 decoder; the fuel is instantiated with the length of the
input, which bounds the number of characters produced. -/
def utf8DecodeAux : Nat → List Nat → Option (List Char)
  | _, [] => some []
  | 0, _ :: _ => none
  | fuel + 1, b :: rest =>
      if b < 0x80 then (utf8DecodeAux fuel rest).map fun cs => Char.ofNat b :: cs
      else if b < 0xC0 then none
      else if b < 0xE0 then
        match rest with
        | b2 :: rest2 =>
            if 0x80 ≤ b2 ∧ b2 < 0xC0 then
              (utf8DecodeAux fuel rest2).map fun cs =>
                Char.ofNat ((b - 0xC0) * 64 + (b2 - 0x80)) :: cs
            else none
        | [] => none
      else if b < 0xF0 then
        match rest with
        | b2 :: b3 :: rest2 =>
            if (0x80 ≤ b2 ∧ b2 < 0xC0) ∧ (0x80 ≤ b3 ∧ b3 < 0xC0) then
              (utf8DecodeAux fuel rest2).map fun cs =>
                Char.ofNat ((b - 0xE0) * 4096 + (b2 - 0x80) * 64 + (b3 - 0x80)) :: cs
            else none
        | _ => none
      else if b < 0xF8 then
        match rest with
        | b2 :: b3 :: b4 :: rest2 =>
            if (0x80 ≤ b2 ∧ b2 < 0xC0) ∧ (0x80 ≤ b3 ∧ b3 < 0xC0) ∧
                (0x80 ≤ b4 ∧ b4 < 0xC0) then
              (utf8DecodeAux fuel rest2).map fun cs =>
                Char.ofNat ((b - 0xF0) * 0x40000 + (b2 - 0x80) * 4096 +
                  (b3 - 0x80) * 64 + (b4 - 0x80)) :: cs
            else none
        | _ => none
      else none

/-- UTF-8 decoding of a byte sequence (model of `bytes.decode`). -/
def utf8Decode (bs : List Nat) : Option (List Char) := utf8DecodeAux bs.length bs

/-! ## The Output Relay (`comint-mime.py`) -/
/-- A Python value reaching the image encoders: either a text string or a byte
string (`encoding_workaround` dispatches on `isinstance(data, str)`). -/
inductive StrOrBytes : Type where
  | str : String → StrOrBytes
  | bytes : List Nat → StrOrBytes

/-- Model of `base64.decodebytes` on a byte string: bytes outside the base64
alphabet are skipped and the sextets are recombined. -/
def decodebytes (bs : List Nat) : List Nat := b64decode (bs.map Char.ofNat)

/-- The `encoding_workaround` encoder of `comint-mime.py`: a text argument is
base64-decoded back to bytes (`decodebytes(data.encode())`), a byte argument
is returned unchanged. -/
def encoding_workaround : StrOrBytes → List Nat
  | .str s => decodebytes (strEncode s)
  | .bytes b => b

/-- The `application/json` encoder of `MIME_TYPES`:
`lambda d: to_json(d).encode()`. -/
def jsonEncoder (d : JValue) : List Nat := strEncode (jsonDumps d)

/-- The `SIZE_LIMIT` constant of `comint-mime.py`. -/
def SIZE_LIMIT : Nat := 4000

/-- Python dict update `{**meta, "type": type}`: if the key is present its
value is replaced in place, otherwise the pair is appended. -/
def dictSet (d : List (String × JValue)) (k : String) (v : JValue) :
    List (String × JValue) :=
  if (d.map Prod.fst).contains k then
    d.map fun kv => if kv.1 = k then (kv.1, v) else kv
  else d ++ [(k, v)]

/-- Bytes considered safe by `PurePosixPath.as_uri`, which percent-encodes
with `quote_from_bytes(..., safe="/")`: ASCII letters, digits, `_.-~` and the
path separator. -/
def uriSafe (b : Nat) : Bool :=
  (0x41 ≤ b ∧ b ≤ 0x5A) ∨ (0x61 ≤ b ∧ b ≤ 0x7A) ∨ (0x30 ≤ b ∧ b ≤ 0x39) ∨
    b = 0x5F ∨ b = 0x2E ∨ b = 0x2D ∨ b = 0x7E ∨ b = 0x2F

/-- Uppercase hexadecimal digits used by percent-encoding. -/
def hexDigitsUpper : List Char := "0123456789ABCDEF".toList

/-- Percent-encode one byte unless it is safe. -/
def uriQuoteByte (b : Nat) : List Char :=
  if uriSafe b then [Char.ofNat b]
  else ['%', hexDigitsUpper.getD (b / 16) '0', hexDigitsUpper.getD (b % 16) '0']

/-- Percent-encode a byte sequence. -/
def uriQuoteBytes : List Nat → List Char
  | [] => []
  | b :: rest => uriQuoteByte b ++ uriQuoteBytes rest

/-- Model of `pathlib.Path.as_uri` on an absolute POSIX path (as `mkstemp`
returns): the `file://` scheme followed by the percent-encoded path. -/
def pathAsUri (p : String) : String :=
  "file://" ++ String.mk (uriQuoteBytes (strEncode p))

/-- Append the newline that Python `print` adds to its argument. -/
def pyPrint (s : String) : String := s ++ "\n"

/-- The escape sequence built by the f-string of `print_osc`:
`"\033]5151;{header}\n{payload}\033\\"`. -/
def oscSequence (header payload : String) : String :=
  "\x1b]5151;" ++ header ++ "\n" ++ payload ++ "\x1b\\"

/-- Observable effects of one `print_osc` call. -/
structure OscResult where
  header : String
  payload : String
  output : String
  files : List (String × List Nat)

/-- Model of `print_osc`.  The encoder argument is total because every
registration (`partial(print_osc, mime, encoder)`) passes a function, so the
`if encoder:` truthiness guard of the source always takes the encoding branch;
`tmpName` stands for the fresh unique path `mkstemp` returns on the spill
path, and `files` records the bytes written to it. -/
def print_osc {α : Type} (type : String) (encoder : α → List Nat) (data : α)
    (meta : Option (List (String × JValue))) (tmpName : String) : OscResult :=
  let meta' := meta.getD []
  let d := encoder data
  let header := jsonDumps (.obj (dictSet meta' "type" (.str type)))
  if d.length > SIZE_LIMIT then
    let payload := "tmp" ++ pathAsUri tmpName
    { header := header, payload := payload,
      output := pyPrint (oscSequence header payload), files := [(tmpName, d)] }
  else
    let payload := String.mk (encodebytes d)
    { header := header, payload := payload,
      output := pyPrint (oscSequence header payload), files := [] }

/-- Stated from the spec for comparison: the emitted byte sequence the spec
describes, `ESC ]5151; header LF payload ESC backslash` with no trailing
newline after the terminator. -/
def specEmitSequence (header payload : String) : String :=
  "\x1b]5151;" ++ header ++ "\n" ++ payload ++ "\x1b\\"

/-- The keys of the `MIME_TYPES` table, in source order. -/
def MIME_TYPES_KEYS : List String :=
  ["image/png", "image/jpeg", "text/latex", "text/html", "application/json"]

/-- Python `str.split(";")`: split at every semicolon; the result is never
empty (an empty input yields one empty field). -/
def splitSemi : List Char → List (List Char)
  | [] => [[]]
  | c :: rest =>
      match splitSemi rest with
      | [] => [[c]]
      | h :: t => if c = ';' then [] :: h :: t else (c :: h) :: t

/-- The selection `types` is iterated over after `__COMINT_MIME_setup`
normalises it: the sentinel `"all"` stands for the whole `MIME_TYPES` table
(iterating a dict yields its keys), anything else is split at semicolons. -/
def setupSelection (types : String) : List String :=
  if types = "all" then MIME_TYPES_KEYS else (splitSemi types.data).map String.mk

/-- The per-tag enabled flags `__COMINT_MIME_setup` writes into the display
formatter registry: a tag is enabled iff it occurs in the selection. -/
def setupEnabled (types : String) : List (String × Bool) :=
  MIME_TYPES_KEYS.map fun m => (m, (setupSelection types).contains m)

/-- The confirmation line `__COMINT_MIME_setup` prints: when the (always
nonempty after `split`) selection is truthy, the known tags of the selection
joined after `"enabled for"`, otherwise the `"disabled"` notice. -/
def setupMessage (types : String) : String :=
  let sel := setupSelection types
  if sel ≠ [] then
    "`comint-mime' enabled for " ++
      String.intercalate ", " (sel.filter fun t => MIME_TYPES_KEYS.contains t)
  else "`comint-mime' disabled"

theorem isB64_b64char (n : Nat) : isB64 (b64char n) = true := by
  by_cases h : n < 64
  · revert h
    revert n
    decide
  · have h64 : b64alphabet.length ≤ n := by
      have : b64alphabet.length = 64 := by decide
      omega
    simp only [b64char, List.getD_eq_default _ _ h64]
    decide

theorem isB64_eq_false_of_pad : isB64 '=' = false := by decide

theorem isB64_eq_false_of_newline : isB64 '\n' = false := by decide

theorem b64val_b64char {n : Nat} (h : n < 64) : b64val (b64char n) = n := by
  revert h
  revert n
  decide

/-- Filtering the padded chunk encoding down to alphabet characters yields the
pure sextet stream. -/
theorem filter_encChunk (d : List Nat) : (encChunk d).filter isB64 = enc3 d := by
  induction d using encChunk.induct with
  | case1 a b c rest ih =>
      simp [encChunk, enc3, List.filter_cons, isB64_b64char, ih]
  | case2 a b =>
      simp [encChunk, enc3, List.filter_cons, isB64_b64char, isB64_eq_false_of_pad]
  | case3 a =>
      simp [encChunk, enc3, List.filter_cons, isB64_b64char, isB64_eq_false_of_pad]
  | case4 =>
      simp [encChunk, enc3]

/-- The sextet stream of a concatenation splits at any 3-divisible boundary. -/
theorem enc3_append (xs ys : List Nat) (h : xs.length % 3 = 0) :
    enc3 (xs ++ ys) = enc3 xs ++ enc3 ys := by
  induction xs using enc3.induct with
  | case1 a b c rest ih =>
      simp only [List.length_cons] at h
      simp [enc3, List.cons_append, ih (by omega)]
  | case2 a b => simp at h
  | case3 a => simp at h
  | case4 => simp [enc3]

theorem encodebytesAux_nil (fuel : Nat) : encodebytesAux fuel [] = [] := by
  cases fuel <;> rfl

/-- Filtering the full MIME-wrapped encoding down to alphabet characters
yields the pure sextet stream of the input. -/
theorem filter_encodebytesAux (fuel : Nat) (d : List Nat) (h : d.length ≤ fuel) :
    (encodebytesAux fuel d).filter isB64 = enc3 d := by
  induction fuel generalizing d with
  | zero =>
      have : d = [] := by
        cases d with
        | nil => rfl
        | cons a t => simp at h
      subst this
      simp [encodebytesAux, enc3]
  | succ fuel ih =>
      cases d with
      | nil => simp [encodebytesAux, enc3]
      | cons a t =>
          have hdrop : (List.drop 57 (a :: t)).length ≤ fuel := by
            simp only [List.length_drop, List.length_cons] at *
            omega
          by_cases hlen : (a :: t).length ≤ 57
          · have h1 : List.take 57 (a :: t) = a :: t := List.take_of_length_le hlen
            have h2 : List.drop 57 (a :: t) = [] := List.drop_of_length_le hlen
            simp [encodebytesAux, List.filter_append, List.filter_cons,
              isB64_eq_false_of_newline, filter_encChunk, h1, h2,
              encodebytesAux_nil, enc3]
          · have h3 : (List.take 57 (a :: t)).length = 57 := by
              simp only [List.length_take]
              omega
            have := enc3_append (List.take 57 (a :: t)) (List.drop 57 (a :: t))
              (by rw [h3])
            rw [List.take_append_drop] at this
            simp only [encodebytesAux, List.filter_append, List.filter_cons,
              isB64_eq_false_of_newline, filter_encChunk, ih _ hdrop,
              Bool.false_eq_true, if_false]
            rw [this]

theorem filter_encodebytes (d : List Nat) :
    (encodebytes d).filter isB64 = enc3 d :=
  filter_encodebytesAux d.length d le_rfl

/-- Decoding the sextet stream of a byte string recovers the byte string. -/
theorem decSextets_enc3 (d : List Nat) (hd : ∀ b ∈ d, b < 256) :
    decSextets ((enc3 d).map b64val) = d := by
  induction d using enc3.induct with
  | case1 a b c rest ih =>
      have ha : a < 256 := hd a (by simp)
      have hb : b < 256 := hd b (by simp)
      have hc : c < 256 := hd c (by simp)
      have h1 : a / 4 < 64 := by omega
      have h2 : (a % 4) * 16 + b / 16 < 64 := by omega
      have h3 : (b % 16) * 4 + c / 64 < 64 := by omega
      have h4 : c % 64 < 64 := by omega
      simp only [enc3, List.map_cons, b64val_b64char h1, b64val_b64char h2,
        b64val_b64char h3, b64val_b64char h4, decSextets]
      rw [ih (fun x hx => hd x (by simp [hx]))]
      have e1 : a / 4 * 4 + ((a % 4) * 16 + b / 16) / 16 = a := by omega
      have e2 : ((a % 4) * 16 + b / 16) % 16 * 16 + ((b % 16) * 4 + c / 64) / 4 = b := by
        omega
      have e3 : ((b % 16) * 4 + c / 64) % 4 * 64 + c % 64 = c := by omega
      rw [e1, e2, e3]
  | case2 a b =>
      have ha : a < 256 := hd a (by simp)
      have hb : b < 256 := hd b (by simp)
      have h1 : a / 4 < 64 := by omega
      have h2 : (a % 4) * 16 + b / 16 < 64 := by omega
      have h3 : (b % 16) * 4 < 64 := by omega
      simp only [enc3, List.map_cons, List.map_nil, b64val_b64char h1,
        b64val_b64char h2, b64val_b64char h3, decSextets]
      have e1 : a / 4 * 4 + ((a % 4) * 16 + b / 16) / 16 = a := by omega
      have e2 : ((a % 4) * 16 + b / 16) % 16 * 16 + (b % 16) * 4 / 4 = b := by omega
      rw [e1, e2]
  | case3 a =>
      have ha : a < 256 := hd a (by simp)
      have h1 : a / 4 < 64 := by omega
      have h2 : (a % 4) * 16 < 64 := by omega
      simp only [enc3, List.map_cons, List.map_nil, b64val_b64char h1,
        b64val_b64char h2, decSextets]
      have e1 : a / 4 * 4 + (a % 4) * 16 / 16 = a := by omega
      rw [e1]
  | case4 => simp [enc3, decSextets]

/-- Round trip: standard base64 decoding undoes `base64.encodebytes`. -/
theorem b64decode_encodebytes (d : List Nat) (hd : ∀ b ∈ d, b < 256) :
    b64decode (encodebytes d) = d := by
  rw [b64decode, filter_encodebytes, decSextets_enc3 d hd]

/-! ## Round trip: the parser recovers every value `jsonDumps` emits -/
theorem hexVal_hexDig {m : Nat} (h : m < 16) : hexVal (hexDig m) = some m := by
  revert h
  revert m
  decide

theorem hex4val_hex4 (n : Nat) (h : n < 65536) :
    hex4val (hexDig (n / 4096 % 16)) (hexDig (n / 256 % 16))
      (hexDig (n / 16 % 16)) (hexDig (n % 16)) = some n := by
  have e1 := hexVal_hexDig (show n / 4096 % 16 < 16 by omega)
  have e2 := hexVal_hexDig (show n / 256 % 16 < 16 by omega)
  have e3 := hexVal_hexDig (show n / 16 % 16 < 16 by omega)
  have e4 := hexVal_hexDig (show n % 16 < 16 by omega)
  simp only [hex4val, e1, e2, e3, e4, Option.some_bind, Option.map_some',
    Option.some.injEq]
  omega

theorem readEsc_u (a b c d : Char) (rest : List Char) :
    readEsc ('u' :: a :: b :: c :: d :: rest) =
      (hex4val a b c d).bind fun n =>
        if 0xD800 ≤ n ∧ n < 0xDC00 then readLowSurrogate n rest
        else some (Char.ofNat n, rest) := rfl

theorem readLowSurrogate_cons (n : Nat) (a b c d : Char) (rest : List Char) :
    readLowSurrogate n ('\\' :: 'u' :: a :: b :: c :: d :: rest) =
      (hex4val a b c d).bind fun m =>
        if 0xDC00 ≤ m ∧ m < 0xE000 then
          some (Char.ofNat (0x10000 + (n - 0xD800) * 1024 + (m - 0xDC00)), rest)
        else none := rfl

theorem readEsc_u_some (a b c d : Char) (rest : List Char) (n : Nat)
    (h : hex4val a b c d = some n) :
    readEsc ('u' :: a :: b :: c :: d :: rest) =
      if 0xD800 ≤ n ∧ n < 0xDC00 then readLowSurrogate n rest
      else some (Char.ofNat n, rest) := by
  rw [readEsc_u, h, Option.some_bind]

theorem readLowSurrogate_some (k : Nat) (a b c d : Char) (rest : List Char) (m : Nat)
    (h : hex4val a b c d = some m) :
    readLowSurrogate k ('\\' :: 'u' :: a :: b :: c :: d :: rest) =
      if 0xDC00 ≤ m ∧ m < 0xE000 then
        some (Char.ofNat (0x10000 + (k - 0xD800) * 1024 + (m - 0xDC00)), rest)
      else none := by
  rw [readLowSurrogate_cons, h, Option.some_bind]

/-- Case analysis of the escaping of one character: either it is kept verbatim
(and is then neither a quote nor a backslash), or it is rendered as a
backslash escape. -/
theorem escChar_cases (c : Char) :
    (escChar c = [c] ∧ c ≠ '"' ∧ c ≠ '\\') ∨ ∃ t, escChar c = '\\' :: t := by
  rw [escChar]
  by_cases h1 : c = '"'
  · exact Or.inr ⟨_, by rw [if_pos h1]⟩
  rw [if_neg h1]
  by_cases h2 : c = '\\'
  · exact Or.inr ⟨_, by rw [if_pos h2]⟩
  rw [if_neg h2]
  by_cases h3 : c = '\n'
  · exact Or.inr ⟨_, by rw [if_pos h3]⟩
  rw [if_neg h3]
  by_cases h4 : c = '\r'
  · exact Or.inr ⟨_, by rw [if_pos h4]⟩
  rw [if_neg h4]
  by_cases h5 : c = '\t'
  · exact Or.inr ⟨_, by rw [if_pos h5]⟩
  rw [if_neg h5]
  by_cases h6 : c.toNat = 8
  · exact Or.inr ⟨_, by rw [if_pos h6]⟩
  rw [if_neg h6]
  by_cases h7 : c.toNat = 12
  · exact Or.inr ⟨_, by rw [if_pos h7]⟩
  rw [if_neg h7]
  by_cases h8 : 0x20 ≤ c.toNat ∧ c.toNat ≤ 0x7E
  · exact Or.inl ⟨by rw [if_pos h8], h1, h2⟩
  rw [if_neg h8]
  by_cases h9 : c.toNat < 0x10000
  · exact Or.inr ⟨_, by rw [if_pos h9]⟩
  · refine Or.inr ⟨'u' :: hex4 (0xD800 + (c.toNat - 0x10000) / 1024) ++
      ('\\' :: 'u' :: hex4 (0xDC00 + (c.toNat - 0x10000) % 1024)), ?_⟩
    rw [if_neg h9, List.cons_append]

/-- Reading back the escape of a character that `escChar` renders as a
backslash escape recovers the character. -/
theorem readEsc_escChar (c : Char) (t rest : List Char) (h : escChar c = '\\' :: t) :
    readEsc (t ++ rest) = some (c, rest) := by
  have hvalid : c.toNat < 0xD800 ∨ (0xE000 ≤ c.toNat ∧ c.toNat < 0x110000) := c.valid
  rw [escChar] at h
  by_cases h1 : c = '"'
  · rw [if_pos h1] at h
    cases h
    subst h1
    rfl
  rw [if_neg h1] at h
  by_cases h2 : c = '\\'
  · rw [if_pos h2] at h
    cases h
    subst h2
    rfl
  rw [if_neg h2] at h
  by_cases h3 : c = '\n'
  · rw [if_pos h3] at h
    cases h
    subst h3
    rfl
  rw [if_neg h3] at h
  by_cases h4 : c = '\r'
  · rw [if_pos h4] at h
    cases h
    subst h4
    rfl
  rw [if_neg h4] at h
  by_cases h5 : c = '\t'
  · rw [if_pos h5] at h
    cases h
    subst h5
    rfl
  rw [if_neg h5] at h
  by_cases h6 : c.toNat = 8
  · rw [if_pos h6] at h
    cases h
    have : c = Char.ofNat 8 := by rw [← h6, Char.ofNat_toNat]
    rw [this]
    rfl
  rw [if_neg h6] at h
  by_cases h7 : c.toNat = 12
  · rw [if_pos h7] at h
    cases h
    have : c = Char.ofNat 12 := by rw [← h7, Char.ofNat_toNat]
    rw [this]
    rfl
  rw [if_neg h7] at h
  by_cases h8 : 0x20 ≤ c.toNat ∧ c.toNat ≤ 0x7E
  · rw [if_pos h8] at h
    exact absurd h (by simp [h2])
  rw [if_neg h8] at h
  by_cases h9 : c.toNat < 0x10000
  · rw [if_pos h9] at h
    cases h
    have hns : ¬(0xD800 ≤ c.toNat ∧ c.toNat < 0xDC00) := by
      rcases hvalid with hlt | ⟨hge, _⟩ <;> omega
    simp only [hex4, List.append_eq, List.cons_append, List.nil_append]
    rw [readEsc_u_some _ _ _ _ _ _ (hex4val_hex4 c.toNat h9)]
    rw [if_neg hns, Char.ofNat_toNat]
  · rw [if_neg h9] at h
    cases h
    have hub : c.toNat < 0x110000 := by
      rcases hvalid with hlt | ⟨_, hub⟩ <;> omega
    generalize hXhi : 0xD800 + (c.toNat - 0x10000) / 1024 = hi
    generalize hXlo : 0xDC00 + (c.toNat - 0x10000) % 1024 = lo
    have hhi : hi < 65536 := by omega
    have hlo : lo < 65536 := by omega
    simp only [hex4, List.append_eq, List.cons_append, List.append_assoc,
      List.nil_append]
    rw [readEsc_u_some _ _ _ _ _ _ (hex4val_hex4 _ hhi)]
    rw [if_pos (show 0xD800 ≤ hi ∧ hi < 0xDC00 by omega)]
    rw [readLowSurrogate_some _ _ _ _ _ _ _ (hex4val_hex4 _ hlo)]
    rw [if_pos (show 0xDC00 ≤ lo ∧ lo < 0xE000 by omega)]
    have heq : 0x10000 + (hi - 0xD800) * 1024 + (lo - 0xDC00) = c.toNat := by omega
    rw [heq, Char.ofNat_toNat]

/-- Escaping cannot shrink a string. -/
theorem length_le_length_escString (s : List Char) :
    s.length ≤ (escString s).length := by
  induction s with
  | nil => simp [escString]
  | cons c s ih =>
      have hne : escChar c ≠ [] := by
        rcases escChar_cases c with ⟨h, _, _⟩ | ⟨t, h⟩ <;> simp [h]
      have : 1 ≤ (escChar c).length := by
        cases hec : escChar c with
        | nil => exact absurd hec hne
        | cons a t => simp
      simp only [escString, List.length_append, List.length_cons]
      omega

/-- Reading a string body undoes the escaping, given enough fuel. -/
theorem parseStrBody_escString (s : List Char) :
    ∀ (fuel : Nat) (rest : List Char), s.length < fuel →
      parseStrBody fuel (escString s ++ '"' :: rest) = some (s, rest) := by
  induction s with
  | nil =>
      intro fuel rest hfuel
      match fuel, hfuel with
      | fuel + 1, _ => rfl
  | cons c s ih =>
      intro fuel rest hfuel
      match fuel, hfuel with
      | fuel + 1, hfuel =>
        have hstep : escString (c :: s) = escChar c ++ escString s := rfl
        rcases escChar_cases c with ⟨hec, hq, hb⟩ | ⟨t, hec⟩
        · rw [hstep, hec]
          simp only [List.cons_append, List.nil_append, List.append_assoc]
          simp only [parseStrBody]
          rw [if_neg hq, if_neg hb, ih fuel rest (by simpa using hfuel)]
          rfl
        · rw [hstep, hec]
          simp only [List.cons_append, List.append_assoc]
          simp only [parseStrBody, if_true]
          rw [readEsc_escChar c t _ hec]
          simp only [Option.some_bind]
          rw [ih fuel rest (by simpa using hfuel)]
          rfl

theorem isDigitCh_hexDig {n : Nat} (h : n < 10) : isDigitCh (hexDig n) = true := by
  revert h
  revert n
  decide

theorem toNat_hexDig_sub {n : Nat} (h : n < 10) : (hexDig n).toNat - 48 = n := by
  revert h
  revert n
  decide

/-- The decimal rendering of a natural number starts with a digit. -/
theorem natDigitsAux_head (fuel : Nat) :
    ∀ n, ∃ c t, natDigitsAux fuel n = c :: t ∧ isDigitCh c = true := by
  induction fuel with
  | zero =>
      intro n
      exact ⟨hexDig (n % 10), [], rfl, isDigitCh_hexDig (by omega)⟩
  | succ fuel ih =>
      intro n
      by_cases hn : n < 10
      · exact ⟨hexDig n, [], by rw [natDigitsAux, if_pos hn], isDigitCh_hexDig hn⟩
      · obtain ⟨c, t, hct, hc⟩ := ih (n / 10)
        refine ⟨c, t ++ [hexDig (n % 10)], ?_, hc⟩
        rw [natDigitsAux, if_neg hn, hct]
        rfl

/-- Consuming a rendered number updates the running accumulator by its value. -/
theorem parseDigitsAcc_natDigitsAux (fuel : Nat) :
    ∀ (n acc : Nat) (rest : List Char), n ≤ fuel →
      parseDigitsAcc acc (natDigitsAux fuel n ++ rest) =
        parseDigitsAcc (acc * 10 ^ (natDigitsAux fuel n).length + n) rest := by
  induction fuel with
  | zero =>
      intro n acc rest h
      have hn : n = 0 := by omega
      subst hn
      show parseDigitsAcc acc (hexDig 0 :: rest) = _
      rw [parseDigitsAcc, if_pos (isDigitCh_hexDig (by omega)),
        toNat_hexDig_sub (by omega : (0 : Nat) < 10)]
      rw [show (natDigitsAux 0 0).length = 1 from rfl, pow_one]
  | succ fuel ih =>
      intro n acc rest h
      by_cases hn : n < 10
      · rw [natDigitsAux, if_pos hn]
        show parseDigitsAcc acc (hexDig n :: rest) = _
        rw [parseDigitsAcc, if_pos (isDigitCh_hexDig hn), toNat_hexDig_sub hn]
        norm_num
      · rw [natDigitsAux, if_neg hn, List.append_assoc,
          ih (n / 10) acc _ (by omega), List.length_append]
        show parseDigitsAcc _ (hexDig (n % 10) :: rest) = _
        rw [parseDigitsAcc, if_pos (isDigitCh_hexDig (by omega)),
          toNat_hexDig_sub (by omega : n % 10 < 10)]
        congr 1
        simp only [List.length_cons, List.length_nil]
        rw [pow_succ, ← Nat.mul_assoc]
        generalize acc * 10 ^ (natDigitsAux fuel (n / 10)).length = A
        omega

/-- Reading the decimal rendering of a natural number recovers it, when the
following character is not a digit. -/
theorem parseDigitsAcc_natDigits (n : Nat) (rest : List Char)
    (hrest : headNotDigit rest) :
    parseDigitsAcc 0 (natDigits n ++ rest) = (n, rest) := by
  rw [natDigits, parseDigitsAcc_natDigitsAux n n 0 rest le_rfl]
  rw [Nat.zero_mul, Nat.zero_add]
  cases rest with
  | nil => rfl
  | cons c r =>
      rw [parseDigitsAcc, if_neg]
      rw [show headNotDigit (c :: r) = (isDigitCh c = false) from rfl] at hrest
      simp [hrest]

theorem stringMk_data (s : String) : String.mk s.data = s := rfl

theorem ne_brackets_of_isDigitCh {c : Char} (h : isDigitCh c = true) :
    c ≠ ']' ∧ c ≠ '}' := by
  constructor <;> intro he <;> subst he <;> exact absurd h (by decide)

/-- The rendering of a value is nonempty and never starts with a closing
bracket or brace. -/
theorem dumpsVal_head (v : JValue) :
    ∃ c t, dumpsVal v = c :: t ∧ c ≠ ']' ∧ c ≠ '}' := by
  cases v with
  | null => exact ⟨'n', _, rfl, by decide, by decide⟩
  | bool b => cases b with
      | true => exact ⟨'t', _, rfl, by decide, by decide⟩
      | false => exact ⟨'f', _, rfl, by decide, by decide⟩
  | int i =>
      by_cases hi : i < 0
      · exact ⟨'-', _, by rw [show dumpsVal (.int i) = intRepr i from rfl,
          intRepr, if_pos hi], by decide, by decide⟩
      · obtain ⟨c, t, hct, hc⟩ := natDigitsAux_head i.natAbs i.natAbs
        refine ⟨c, t, ?_, (ne_brackets_of_isDigitCh hc).1,
          (ne_brackets_of_isDigitCh hc).2⟩
        rw [show dumpsVal (.int i) = intRepr i from rfl, intRepr, if_neg hi,
          natDigits, hct]
  | str s => exact ⟨'"', _, rfl, by decide, by decide⟩
  | arr vs => cases vs with
      | nil => exact ⟨'[', _, rfl, by decide, by decide⟩
      | cons v vs => exact ⟨'[', _, rfl, by decide, by decide⟩
  | obj kvs => cases kvs with
      | nil => exact ⟨'{', _, rfl, by decide, by decide⟩
      | cons kv kvs => exact ⟨'{', _, rfl, by decide, by decide⟩

theorem jfuel_pos (v : JValue) : 1 ≤ jfuel v := by
  cases v <;> simp [jfuel]

/-- A rendered integer parses back, at any successor fuel. -/
theorem parseV_int (fuel : Nat) (i : Int) (rest : List Char)
    (hrest : headNotDigit rest) :
    parseV (fuel + 1) (dumpsVal (.int i) ++ rest) = some (.int i, rest) := by
  obtain ⟨c, t, hct, hdig⟩ := natDigitsAux_head i.natAbs i.natAbs
  by_cases hi : i < 0
  · have hd : dumpsVal (.int i) = '-' :: natDigits i.natAbs := by
      rw [show dumpsVal (.int i) = intRepr i from rfl, intRepr, if_pos hi]
    rw [hd, natDigits, hct]
    simp only [List.cons_append]
    simp only [parseV]
    rw [if_pos trivial, if_pos hdig]
    rw [show c :: (t ++ rest) = natDigits i.natAbs ++ rest from by
      rw [natDigits, hct, List.cons_append]]
    rw [parseDigitsAcc_natDigits i.natAbs rest hrest]
    show some (JValue.int (-(i.natAbs : Int)), rest) = _
    rw [show (-(i.natAbs : Int)) = i from by omega]
  · have hd : dumpsVal (.int i) = natDigits i.natAbs := by
      rw [show dumpsVal (.int i) = intRepr i from rfl, intRepr, if_neg hi]
    rw [hd, natDigits, hct]
    simp only [List.cons_append]
    simp only [parseV]
    rw [if_pos hdig]
    rw [show c :: (t ++ rest) = natDigits i.natAbs ++ rest from by
      rw [natDigits, hct, List.cons_append]]
    rw [parseDigitsAcc_natDigits i.natAbs rest hrest]
    show some (JValue.int ((i.natAbs : Nat) : Int), rest) = _
    rw [show ((i.natAbs : Nat) : Int) = i from by omega]

/-- A rendered string parses back, at any successor fuel. -/
theorem parseV_str (fuel : Nat) (s : String) (rest : List Char) :
    parseV (fuel + 1) (dumpsVal (.str s) ++ rest) = some (.str s, rest) := by
  have hd : dumpsVal (.str s) ++ rest =
      '"' :: (escString s.data ++ '"' :: rest) := by
    show ('"' :: escString s.data ++ ['"']) ++ rest = _
    simp [List.cons_append, List.append_assoc]
  have hlen : s.data.length < (escString s.data ++ '"' :: rest).length := by
    have := length_le_length_escString s.data
    simp only [List.length_append, List.length_cons]
    omega
  rw [hd]
  simp only [parseV]
  rw [parseStrBody_escString s.data _ rest hlen]
  rfl

theorem headNotDigit_arrTail (vs : List JValue) (rest : List Char) :
    headNotDigit (dumpsArrTail vs ++ ']' :: rest) := by
  cases vs with
  | nil =>
      show isDigitCh ']' = false
      decide
  | cons v vs =>
      show isDigitCh ',' = false
      decide

theorem headNotDigit_objTail (kvs : List (String × JValue)) (rest : List Char) :
    headNotDigit (dumpsObjTail kvs ++ '}' :: rest) := by
  cases kvs with
  | nil =>
      show isDigitCh '}' = false
      decide
  | cons kv kvs =>
      show isDigitCh ',' = false
      decide

/-- A rendered nonempty array parses back, given the element parser at the
previous fuel level. -/
theorem parseV_arr (fuel : Nat)
    (hI : ∀ v vs rest, jfuelItems (v :: vs) ≤ fuel →
        parseItems fuel (dumpsVal v ++ (dumpsArrTail vs ++ ']' :: rest)) =
          some (v :: vs, rest))
    (v : JValue) (vs : List JValue) (rest : List Char)
    (hf : jfuelItems (v :: vs) ≤ fuel) :
    parseV (fuel + 1) (dumpsVal (.arr (v :: vs)) ++ rest) =
      some (.arr (v :: vs), rest) := by
  obtain ⟨c, t, hct, hcn, _⟩ := dumpsVal_head v
  have hd : dumpsVal (.arr (v :: vs)) ++ rest =
      '[' :: (dumpsVal v ++ (dumpsArrTail vs ++ ']' :: rest)) := by
    show ('[' :: (dumpsVal v ++ dumpsArrTail vs) ++ [']']) ++ rest = _
    simp [List.cons_append, List.append_assoc]
  rw [hd]
  simp only [parseV]
  rw [show (dumpsVal v ++ (dumpsArrTail vs ++ ']' :: rest)).head? = some c from by
    rw [hct]; rfl]
  rw [if_neg (show ¬(some c = some ']') from by simp [hcn])]
  rw [hI v vs rest hf]
  rfl

/-- A rendered nonempty object parses back, given the member parser at the
previous fuel level. -/
theorem parseV_obj (fuel : Nat)
    (hM : ∀ (k : String) (v : JValue) kvs rest,
        jfuelMembers ((k, v) :: kvs) ≤ fuel →
        parseMembers fuel (dumpsMember (k, v) ++ (dumpsObjTail kvs ++ '}' :: rest)) =
          some ((k, v) :: kvs, rest))
    (k : String) (v : JValue) (kvs : List (String × JValue)) (rest : List Char)
    (hf : jfuelMembers ((k, v) :: kvs) ≤ fuel) :
    parseV (fuel + 1) (dumpsVal (.obj ((k, v) :: kvs)) ++ rest) =
      some (.obj ((k, v) :: kvs), rest) := by
  have hd : dumpsVal (.obj ((k, v) :: kvs)) ++ rest =
      '{' :: (dumpsMember (k, v) ++ (dumpsObjTail kvs ++ '}' :: rest)) := by
    show ('{' :: (dumpsMember (k, v) ++ dumpsObjTail kvs) ++ ['}']) ++ rest = _
    simp [List.cons_append, List.append_assoc]
  rw [hd]
  simp only [parseV]
  rw [show (dumpsMember (k, v) ++ (dumpsObjTail kvs ++ '}' :: rest)).head? =
      some '"' from rfl]
  rw [if_neg (show ¬(some '"' = some '}') from by decide)]
  rw [hM k v kvs rest hf]
  rfl

/-- One induction step for the element-list parser. -/
theorem parseItems_step (fuel : Nat)
    (hV : ∀ v rest, jfuel v ≤ fuel → headNotDigit rest →
        parseV fuel (dumpsVal v ++ rest) = some (v, rest))
    (hI : ∀ v vs rest, jfuelItems (v :: vs) ≤ fuel →
        parseItems fuel (dumpsVal v ++ (dumpsArrTail vs ++ ']' :: rest)) =
          some (v :: vs, rest)) :
    ∀ v vs rest, jfuelItems (v :: vs) ≤ fuel + 1 →
      parseItems (fuel + 1) (dumpsVal v ++ (dumpsArrTail vs ++ ']' :: rest)) =
        some (v :: vs, rest) := by
  intro v vs rest hf
  have hexp : jfuelItems (v :: vs) = max (jfuel v) (jfuelItems vs) + 1 := rfl
  rw [hexp] at hf
  have hfv : jfuel v ≤ fuel := by omega
  simp only [parseItems]
  rw [hV v _ hfv (headNotDigit_arrTail vs rest)]
  simp only [Option.some_bind]
  cases vs with
  | nil => rfl
  | cons u us =>
      have hfu : jfuelItems (u :: us) ≤ fuel := by omega
      have ht : dumpsArrTail (u :: us) ++ ']' :: rest =
          ',' :: ' ' :: (dumpsVal u ++ (dumpsArrTail us ++ ']' :: rest)) := by
        show (',' :: ' ' :: (dumpsVal u ++ dumpsArrTail us)) ++ ']' :: rest = _
        simp [List.cons_append, List.append_assoc]
      rw [ht]
      show (parseItems fuel (dumpsVal u ++ (dumpsArrTail us ++ ']' :: rest))).bind
          (fun tr => some (v :: tr.1, tr.2)) = some (v :: u :: us, rest)
      rw [hI u us rest hfu]
      rfl

/-- One induction step for the member-list parser. -/
theorem parseMembers_step (fuel : Nat)
    (hV : ∀ v rest, jfuel v ≤ fuel → headNotDigit rest →
        parseV fuel (dumpsVal v ++ rest) = some (v, rest))
    (hM : ∀ (k : String) (v : JValue) kvs rest,
        jfuelMembers ((k, v) :: kvs) ≤ fuel →
        parseMembers fuel (dumpsMember (k, v) ++ (dumpsObjTail kvs ++ '}' :: rest)) =
          some ((k, v) :: kvs, rest)) :
    ∀ (k : String) (v : JValue) kvs rest, jfuelMembers ((k, v) :: kvs) ≤ fuel + 1 →
      parseMembers (fuel + 1) (dumpsMember (k, v) ++ (dumpsObjTail kvs ++ '}' :: rest)) =
        some ((k, v) :: kvs, rest) := by
  intro k v kvs rest hf
  have hexp : jfuelMembers ((k, v) :: kvs) = max (jfuel v) (jfuelMembers kvs) + 1 := rfl
  rw [hexp] at hf
  have hfv : jfuel v ≤ fuel := by omega
  have hd : dumpsMember (k, v) ++ (dumpsObjTail kvs ++ '}' :: rest) =
      '"' :: (escString k.data ++ '"' ::
        (':' :: ' ' :: (dumpsVal v ++ (dumpsObjTail kvs ++ '}' :: rest)))) := by
    show (('"' :: escString k.data ++ ['"']) ++ ':' :: ' ' :: dumpsVal v) ++
      (dumpsObjTail kvs ++ '}' :: rest) = _
    simp [List.cons_append, List.append_assoc]
  rw [hd]
  simp only [parseMembers]
  have hlen : k.data.length < (escString k.data ++ '"' ::
      (':' :: ' ' :: (dumpsVal v ++ (dumpsObjTail kvs ++ '}' :: rest)))).length := by
    have := length_le_length_escString k.data
    simp only [List.length_append, List.length_cons]
    omega
  rw [parseStrBody_escString k.data _ _ hlen]
  simp only [Option.some_bind]
  rw [hV v _ hfv (headNotDigit_objTail kvs rest)]
  simp only [Option.some_bind]
  cases kvs with
  | nil => rfl
  | cons kv2 kvs2 =>
      obtain ⟨k2, v2⟩ := kv2
      have hfm : jfuelMembers ((k2, v2) :: kvs2) ≤ fuel := by omega
      have ht : dumpsObjTail ((k2, v2) :: kvs2) ++ '}' :: rest =
          ',' :: ' ' :: (dumpsMember (k2, v2) ++ (dumpsObjTail kvs2 ++ '}' :: rest)) := by
        show (',' :: ' ' :: (dumpsMember (k2, v2) ++ dumpsObjTail kvs2)) ++ '}' :: rest = _
        simp [List.cons_append, List.append_assoc]
      rw [ht]
      show (parseMembers fuel (dumpsMember (k2, v2) ++ (dumpsObjTail kvs2 ++ '}' :: rest))).bind
          (fun tr => some ((String.mk k.data, v) :: tr.1, tr.2)) =
            some ((k, v) :: (k2, v2) :: kvs2, rest)
      rw [hM k2 v2 kvs2 rest hfm]
      rfl

/-- Induction bundle: the three parsers recover every rendered value, element
list and member list, given fuel bounding the nesting depth. -/
theorem parse_dumps_bundle (fuel : Nat) :
    (∀ v rest, jfuel v ≤ fuel → headNotDigit rest →
        parseV fuel (dumpsVal v ++ rest) = some (v, rest)) ∧
    (∀ v vs rest, jfuelItems (v :: vs) ≤ fuel →
        parseItems fuel (dumpsVal v ++ (dumpsArrTail vs ++ ']' :: rest)) =
          some (v :: vs, rest)) ∧
    (∀ (k : String) (v : JValue) kvs rest, jfuelMembers ((k, v) :: kvs) ≤ fuel →
        parseMembers fuel (dumpsMember (k, v) ++ (dumpsObjTail kvs ++ '}' :: rest)) =
          some ((k, v) :: kvs, rest)) := by
  induction fuel with
  | zero =>
      refine ⟨fun v rest hf _ => absurd hf ?_, fun v vs rest hf => absurd hf ?_,
        fun k v kvs rest hf => absurd hf ?_⟩
      · have := jfuel_pos v
        omega
      · simp only [jfuelItems]
        omega
      · simp only [jfuelMembers]
        omega
  | succ fuel ih =>
      obtain ⟨ihV, ihI, ihM⟩ := ih
      refine ⟨?_, parseItems_step fuel ihV ihI, parseMembers_step fuel ihV ihM⟩
      intro v rest hf hrest
      cases v with
      | null => rfl
      | bool b => cases b with
          | false => rfl
          | true => rfl
      | int i => exact parseV_int fuel i rest hrest
      | str s => exact parseV_str fuel s rest
      | arr vs =>
          cases vs with
          | nil => rfl
          | cons u us =>
              refine parseV_arr fuel ihI u us rest ?_
              have he : jfuel (.arr (u :: us)) = jfuelItems (u :: us) + 1 := rfl
              omega
      | obj kvs =>
          cases kvs with
          | nil => rfl
          | cons kv kvs' =>
              obtain ⟨k, v'⟩ := kv
              refine parseV_obj fuel ihM k v' kvs' rest ?_
              have he : jfuel (.obj ((k, v') :: kvs')) =
                  jfuelMembers ((k, v') :: kvs') + 1 := rfl
              omega

mutual

/-- The fuel needed for a value is bounded by the length of its rendering. -/
theorem jfuel_le_length : ∀ v : JValue, jfuel v ≤ (dumpsVal v).length
  | .null => by simp [jfuel, dumpsVal]
  | .bool b => by cases b <;> simp [jfuel, dumpsVal]
  | .int i => by
      obtain ⟨c, t, hct, _⟩ := natDigitsAux_head i.natAbs i.natAbs
      show jfuel (.int i) ≤ (intRepr i).length
      rw [intRepr]
      by_cases hi : i < 0
      · rw [if_pos hi, natDigits, hct]
        simp [jfuel]
      · rw [if_neg hi, natDigits, hct]
        simp [jfuel]
  | .str s => by simp [jfuel, dumpsVal, quoteString]
  | .arr [] => by simp [jfuel, jfuelItems, dumpsVal]
  | .arr (v :: vs) => by
      have h1 := jfuel_le_length v
      have h2 := jfuelItems_le_length vs
      have he : jfuel (.arr (v :: vs)) = max (jfuel v) (jfuelItems vs) + 2 := rfl
      have hl : (dumpsVal (.arr (v :: vs))).length =
          (dumpsVal v).length + (dumpsArrTail vs).length + 2 := by
        show ('[' :: (dumpsVal v ++ dumpsArrTail vs) ++ [']']).length = _
        simp [List.length_append]
        omega
      omega
  | .obj [] => by simp [jfuel, jfuelMembers, dumpsVal]
  | .obj ((k, v) :: kvs) => by
      have h1 := jfuel_le_length v
      have h2 := jfuelMembers_le_length kvs
      have he : jfuel (.obj ((k, v) :: kvs)) =
          max (jfuel v) (jfuelMembers kvs) + 2 := rfl
      have hl : (dumpsVal (.obj ((k, v) :: kvs))).length =
          (dumpsMember (k, v)).length + (dumpsObjTail kvs).length + 2 := by
        show ('{' :: (dumpsMember (k, v) ++ dumpsObjTail kvs) ++ ['}']).length = _
        simp [List.length_append]
        omega
      have hm : (dumpsMember (k, v)).length =
          (quoteString k.data).length + (dumpsVal v).length + 2 := by
        show (quoteString k.data ++ ':' :: ' ' :: dumpsVal v).length = _
        simp [List.length_append]
        omega
      omega

/-- The fuel needed for array elements is bounded by the rendered tail. -/
theorem jfuelItems_le_length : ∀ vs : List JValue,
    jfuelItems vs ≤ (dumpsArrTail vs).length
  | [] => by simp [jfuelItems, dumpsArrTail]
  | v :: vs => by
      have h1 := jfuel_le_length v
      have h2 := jfuelItems_le_length vs
      have he : jfuelItems (v :: vs) = max (jfuel v) (jfuelItems vs) + 1 := rfl
      have hl : (dumpsArrTail (v :: vs)).length =
          (dumpsVal v).length + (dumpsArrTail vs).length + 2 := by
        show (',' :: ' ' :: (dumpsVal v ++ dumpsArrTail vs)).length = _
        simp [List.length_append]
      omega

/-- The fuel needed for object members is bounded by the rendered tail. -/
theorem jfuelMembers_le_length : ∀ kvs : List (String × JValue),
    jfuelMembers kvs ≤ (dumpsObjTail kvs).length
  | [] => by simp [jfuelMembers, dumpsObjTail]
  | (k, v) :: kvs => by
      have h1 := jfuel_le_length v
      have h2 := jfuelMembers_le_length kvs
      have he : jfuelMembers ((k, v) :: kvs) =
          max (jfuel v) (jfuelMembers kvs) + 1 := rfl
      have hl : (dumpsObjTail ((k, v) :: kvs)).length =
          (dumpsMember (k, v)).length + (dumpsObjTail kvs).length + 2 := by
        show (',' :: ' ' :: (dumpsMember (k, v) ++ dumpsObjTail kvs)).length = _
        simp [List.length_append]
      have hm : (dumpsMember (k, v)).length =
          (quoteString k.data).length + (dumpsVal v).length + 2 := by
        show (quoteString k.data ++ ':' :: ' ' :: dumpsVal v).length = _
        simp [List.length_append]
        omega
      omega

end

/-- Every character of a hexadecimal digit is printable ASCII. -/
theorem hexDig_printable (m : Nat) : 0x20 ≤ (hexDig m).toNat ∧ (hexDig m).toNat < 0x80 := by
  by_cases h : m < 16
  · revert h
    revert m
    decide
  · have h16 : hexDigits.length ≤ m := by
      have : hexDigits.length = 16 := by decide
      omega
    simp only [hexDig, List.getD_eq_default _ _ h16]
    decide

/-- Characters of a single `\uXXXX` escape are printable ASCII. -/
theorem mem_uescape_printable (n : Nat) (x : Char)
    (hx : x ∈ '\\' :: 'u' :: hex4 n) : 0x20 ≤ x.toNat ∧ x.toNat < 0x80 := by
  simp only [hex4, List.mem_cons, List.not_mem_nil, or_false] at hx
  rcases hx with h | h | h | h | h | h
  · subst h; decide
  · subst h; decide
  · subst h; exact hexDig_printable _
  · subst h; exact hexDig_printable _
  · subst h; exact hexDig_printable _
  · subst h; exact hexDig_printable _

/-- Characters of a surrogate-pair escape are printable ASCII. -/
theorem mem_uescape_pair_printable (n m : Nat) (x : Char)
    (hx : x ∈ '\\' :: 'u' :: hex4 n ++ ('\\' :: 'u' :: hex4 m)) :
    0x20 ≤ x.toNat ∧ x.toNat < 0x80 := by
  have hx' : x ∈ '\\' :: 'u' :: hex4 n ∨ x ∈ '\\' :: 'u' :: hex4 m := by
    simp only [List.cons_append, List.mem_cons, List.mem_append] at hx ⊢
    tauto
  rcases hx' with h | h
  · exact mem_uescape_printable n x h
  · exact mem_uescape_printable m x h

/-- Every character an escape produces is printable ASCII. -/
theorem escChar_printable (c : Char) :
    ∀ x ∈ escChar c, 0x20 ≤ x.toNat ∧ x.toNat < 0x80 := by
  intro x hx
  rw [escChar] at hx
  by_cases h1 : c = '"'
  · rw [if_pos h1] at hx
    simp only [List.mem_cons, List.not_mem_nil, or_false] at hx
    rcases hx with h | h <;> subst h <;> decide
  rw [if_neg h1] at hx
  by_cases h2 : c = '\\'
  · rw [if_pos h2] at hx
    simp only [List.mem_cons, List.not_mem_nil, or_false] at hx
    rcases hx with h | h <;> subst h <;> decide
  rw [if_neg h2] at hx
  by_cases h3 : c = '\n'
  · rw [if_pos h3] at hx
    simp only [List.mem_cons, List.not_mem_nil, or_false] at hx
    rcases hx with h | h <;> subst h <;> decide
  rw [if_neg h3] at hx
  by_cases h4 : c = '\r'
  · rw [if_pos h4] at hx
    simp only [List.mem_cons, List.not_mem_nil, or_false] at hx
    rcases hx with h | h <;> subst h <;> decide
  rw [if_neg h4] at hx
  by_cases h5 : c = '\t'
  · rw [if_pos h5] at hx
    simp only [List.mem_cons, List.not_mem_nil, or_false] at hx
    rcases hx with h | h <;> subst h <;> decide
  rw [if_neg h5] at hx
  by_cases h6 : c.toNat = 8
  · rw [if_pos h6] at hx
    simp only [List.mem_cons, List.not_mem_nil, or_false] at hx
    rcases hx with h | h <;> subst h <;> decide
  rw [if_neg h6] at hx
  by_cases h7 : c.toNat = 12
  · rw [if_pos h7] at hx
    simp only [List.mem_cons, List.not_mem_nil, or_false] at hx
    rcases hx with h | h <;> subst h <;> decide
  rw [if_neg h7] at hx
  by_cases h8 : 0x20 ≤ c.toNat ∧ c.toNat ≤ 0x7E
  · rw [if_pos h8] at hx
    simp only [List.mem_cons, List.not_mem_nil, or_false] at hx
    subst hx
    exact ⟨h8.1, by omega⟩
  rw [if_neg h8] at hx
  by_cases h9 : c.toNat < 0x10000
  · rw [if_pos h9] at hx
    exact mem_uescape_printable _ x hx
  · rw [if_neg h9] at hx
    exact mem_uescape_pair_printable _ _ x hx

/-- Every character of an escaped string body is printable ASCII. -/
theorem escString_printable (s : List Char) :
    ∀ x ∈ escString s, 0x20 ≤ x.toNat ∧ x.toNat < 0x80 := by
  induction s with
  | nil => intro x hx; cases hx
  | cons c s ih =>
      intro x hx
      rw [show escString (c :: s) = escChar c ++ escString s from rfl,
        List.mem_append] at hx
      rcases hx with h | h
      · exact escChar_printable c x h
      · exact ih x h

/-- Every character of a rendered natural number is printable ASCII. -/
theorem natDigitsAux_printable (fuel : Nat) :
    ∀ n, ∀ x ∈ natDigitsAux fuel n, 0x20 ≤ x.toNat ∧ x.toNat < 0x80 := by
  induction fuel with
  | zero =>
      intro n x hx
      have h0 : natDigitsAux 0 n = [hexDig (n % 10)] := rfl
      rw [h0, List.mem_singleton] at hx
      rw [hx]
      exact hexDig_printable _
  | succ fuel ih =>
      intro n x hx
      have h0 : natDigitsAux (fuel + 1) n =
          if n < 10 then [hexDig n]
          else natDigitsAux fuel (n / 10) ++ [hexDig (n % 10)] := rfl
      rw [h0] at hx
      by_cases hn : n < 10
      · rw [if_pos hn, List.mem_singleton] at hx
        rw [hx]
        exact hexDig_printable _
      · rw [if_neg hn, List.mem_append] at hx
        rcases hx with h | h
        · exact ih (n / 10) x h
        · rw [List.mem_singleton] at h
          rw [h]
          exact hexDig_printable _

mutual

/-- Every character `jsonDumps` emits is printable ASCII (so in particular the
rendering contains no newline and no ESC byte). -/
theorem dumpsVal_printable : ∀ v : JValue, ∀ x ∈ dumpsVal v,
    0x20 ≤ x.toNat ∧ x.toNat < 0x80
  | .null => by
      intro x hx
      simp only [dumpsVal, List.mem_cons, List.not_mem_nil, or_false] at hx
      rcases hx with h | h | h | h <;> subst h <;> decide
  | .bool true => by
      intro x hx
      have hx' : x ∈ ['t', 'r', 'u', 'e'] := hx
      simp only [List.mem_cons, List.not_mem_nil, or_false] at hx'
      rcases hx' with h | h | h | h <;> subst h <;> decide
  | .bool false => by
      intro x hx
      have hx' : x ∈ ['f', 'a', 'l', 's', 'e'] := hx
      simp only [List.mem_cons, List.not_mem_nil, or_false] at hx'
      rcases hx' with h | h | h | h | h <;> subst h <;> decide
  | .int i => by
      intro x hx
      rw [show dumpsVal (.int i) = intRepr i from rfl, intRepr] at hx
      by_cases hi : i < 0
      · rw [if_pos hi, List.mem_cons] at hx
        rcases hx with h | h
        · subst h; decide
        · exact natDigitsAux_printable _ _ x h
      · rw [if_neg hi] at hx
        exact natDigitsAux_printable _ _ x hx
  | .str s => by
      intro x hx
      rw [show dumpsVal (.str s) = '"' :: escString s.data ++ ['"'] from rfl] at hx
      rcases List.mem_append.mp hx with h | h
      · rcases List.mem_cons.mp h with h | h
        · subst h; decide
        · exact escString_printable s.data x h
      · rw [List.mem_singleton] at h
        subst h; decide
  | .arr [] => by
      intro x hx
      simp only [dumpsVal, List.mem_cons, List.not_mem_nil, or_false] at hx
      rcases hx with h | h <;> subst h <;> decide
  | .arr (v :: vs) => by
      intro x hx
      rw [show dumpsVal (.arr (v :: vs)) =
        '[' :: (dumpsVal v ++ dumpsArrTail vs) ++ [']'] from rfl] at hx
      rcases List.mem_append.mp hx with h | h
      · rcases List.mem_cons.mp h with h | h
        · subst h; decide
        · rcases List.mem_append.mp h with h | h
          · exact dumpsVal_printable v x h
          · exact dumpsArrTail_printable vs x h
      · rw [List.mem_singleton] at h
        subst h; decide
  | .obj [] => by
      intro x hx
      simp only [dumpsVal, List.mem_cons, List.not_mem_nil, or_false] at hx
      rcases hx with h | h <;> subst h <;> decide
  | .obj (kv :: kvs) => by
      intro x hx
      rw [show dumpsVal (.obj (kv :: kvs)) =
        '{' :: (dumpsMember kv ++ dumpsObjTail kvs) ++ ['}'] from rfl] at hx
      rcases List.mem_append.mp hx with h | h
      · rcases List.mem_cons.mp h with h | h
        · subst h; decide
        · rcases List.mem_append.mp h with h | h
          · exact dumpsMember_printable kv x h
          · exact dumpsObjTail_printable kvs x h
      · rw [List.mem_singleton] at h
        subst h; decide

/-- Every character of a rendered object member is printable ASCII. -/
theorem dumpsMember_printable : ∀ kv : String × JValue, ∀ x ∈ dumpsMember kv,
    0x20 ≤ x.toNat ∧ x.toNat < 0x80
  | (k, v) => by
      intro x hx
      rw [show dumpsMember (k, v) =
        quoteString k.data ++ ':' :: ' ' :: dumpsVal v from rfl] at hx
      rcases List.mem_append.mp hx with h | h
      · rw [show quoteString k.data = '"' :: escString k.data ++ ['"'] from rfl] at h
        rcases List.mem_append.mp h with h | h
        · rcases List.mem_cons.mp h with h | h
          · subst h; decide
          · exact escString_printable k.data x h
        · rw [List.mem_singleton] at h
          subst h; decide
      · rcases List.mem_cons.mp h with h | h
        · subst h; decide
        · rcases List.mem_cons.mp h with h | h
          · subst h; decide
          · exact dumpsVal_printable v x h

/-- Every character of a rendered array tail is printable ASCII. -/
theorem dumpsArrTail_printable : ∀ vs : List JValue, ∀ x ∈ dumpsArrTail vs,
    0x20 ≤ x.toNat ∧ x.toNat < 0x80
  | [] => by
      intro x hx
      cases hx
  | v :: vs => by
      intro x hx
      rw [show dumpsArrTail (v :: vs) =
        ',' :: ' ' :: (dumpsVal v ++ dumpsArrTail vs) from rfl] at hx
      rcases List.mem_cons.mp hx with h | h
      · subst h; decide
      · rcases List.mem_cons.mp h with h | h
        · subst h; decide
        · rcases List.mem_append.mp h with h | h
          · exact dumpsVal_printable v x h
          · exact dumpsArrTail_printable vs x h

/-- Every character of a rendered object tail is printable ASCII. -/
theorem dumpsObjTail_printable : ∀ kvs : List (String × JValue),
    ∀ x ∈ dumpsObjTail kvs, 0x20 ≤ x.toNat ∧ x.toNat < 0x80
  | [] => by
      intro x hx
      cases hx
  | kv :: kvs => by
      intro x hx
      rw [show dumpsObjTail (kv :: kvs) =
        ',' :: ' ' :: (dumpsMember kv ++ dumpsObjTail kvs) from rfl] at hx
      rcases List.mem_cons.mp hx with h | h
      · subst h; decide
      · rcases List.mem_cons.mp h with h | h
        · subst h; decide
        · rcases List.mem_append.mp h with h | h
          · exact dumpsMember_printable kv x h
          · exact dumpsObjTail_printable kvs x h

end

/-- The rendering of a value contains no newline character. -/
theorem dumpsVal_no_newline (v : JValue) : '\n' ∉ dumpsVal v := by
  intro hmem
  have := dumpsVal_printable v '\n' hmem
  exact absurd this.1 (by decide)

/-- Round trip: parsing recovers every value `jsonDumps` emits. -/
theorem jsonParse_jsonDumps (v : JValue) : jsonParse (jsonDumps v) = some v := by
  have hb := (parse_dumps_bundle ((jsonDumps v).length + 1)).1
  have hfuel : jfuel v ≤ (jsonDumps v).length + 1 := by
    have h1 := jfuel_le_length v
    have h2 : (jsonDumps v).length = (dumpsVal v).length := rfl
    omega
  have h := hb v [] hfuel trivial
  rw [List.append_nil] at h
  rw [jsonParse, show (jsonDumps v).data = dumpsVal v from rfl, h]
  rfl

/-! ## Supporting lemmas for the claims -/
/-- Decoding an ASCII byte stream undoes UTF-8 encoding. -/
theorem utf8DecodeAux_ascii (cs : List Char) :
    ∀ fuel, (∀ c ∈ cs, c.toNat < 0x80) → cs.length ≤ fuel →
      utf8DecodeAux fuel (utf8Chars cs) = some cs := by
  induction cs with
  | nil =>
      intro fuel _ _
      cases fuel <;> rfl
  | cons c cs ih =>
      intro fuel hascii hlen
      have hc : c.toNat < 0x80 := hascii c (by simp)
      match fuel, hlen with
      | fuel + 1, hlen =>
        have hchar : utf8Char c = [c.toNat] := by rw [utf8Char, if_pos hc]
        rw [show utf8Chars (c :: cs) = utf8Char c ++ utf8Chars cs from rfl, hchar,
          List.cons_append, List.nil_append]
        show (if c.toNat < 0x80 then
            (utf8DecodeAux fuel (utf8Chars cs)).map fun l => Char.ofNat c.toNat :: l
          else _) = _
        rw [if_pos hc, ih fuel (fun x hx => hascii x (by simp [hx]))
          (by simpa using hlen), Option.map_some', Char.ofNat_toNat]

/-- UTF-8 encoding cannot shrink a string. -/
theorem length_le_length_utf8Chars (cs : List Char) :
    cs.length ≤ (utf8Chars cs).length := by
  induction cs with
  | nil => simp [utf8Chars]
  | cons c cs ih =>
      have h1 : 1 ≤ (utf8Char c).length := by
        rw [utf8Char]
        by_cases h1 : c.toNat < 0x80
        · rw [if_pos h1]; simp
        rw [if_neg h1]
        by_cases h2 : c.toNat < 0x800
        · rw [if_pos h2]; simp
        rw [if_neg h2]
        by_cases h3 : c.toNat < 0x10000
        · rw [if_pos h3]; simp
        · rw [if_neg h3]; simp
      rw [show utf8Chars (c :: cs) = utf8Char c ++ utf8Chars cs from rfl]
      simp only [List.length_append, List.length_cons]
      omega

/-- Decoding the UTF-8 bytes of an ASCII string recovers it. -/
theorem utf8Decode_ascii (cs : List Char) (h : ∀ c ∈ cs, c.toNat < 0x80) :
    utf8Decode (utf8Chars cs) = some cs :=
  utf8DecodeAux_ascii cs _ h (length_le_length_utf8Chars cs)

/-- Every six-bit rendering lies in the alphabet. -/
theorem b64char_mem (n : Nat) : b64char n ∈ b64alphabet := by
  have h := isB64_b64char n
  rw [isB64] at h
  simpa using h

/-- Every character of a padded chunk encoding is an alphabet character or
the padding sign. -/
theorem encChunk_chars (d : List Nat) :
    ∀ x ∈ encChunk d, x ∈ b64alphabet ∨ x = '=' := by
  induction d using encChunk.induct with
  | case1 a b c rest ih =>
      intro x hx
      simp only [encChunk, List.mem_cons] at hx
      rcases hx with h | h | h | h | h
      · subst h; exact Or.inl (b64char_mem _)
      · subst h; exact Or.inl (b64char_mem _)
      · subst h; exact Or.inl (b64char_mem _)
      · subst h; exact Or.inl (b64char_mem _)
      · exact ih x h
  | case2 a b =>
      intro x hx
      simp only [encChunk, List.mem_cons, List.not_mem_nil, or_false] at hx
      rcases hx with h | h | h | h
      · subst h; exact Or.inl (b64char_mem _)
      · subst h; exact Or.inl (b64char_mem _)
      · subst h; exact Or.inl (b64char_mem _)
      · subst h; exact Or.inr rfl
  | case3 a =>
      intro x hx
      simp only [encChunk, List.mem_cons, List.not_mem_nil, or_false] at hx
      rcases hx with h | h | h | h
      · subst h; exact Or.inl (b64char_mem _)
      · subst h; exact Or.inl (b64char_mem _)
      · subst h; exact Or.inr rfl
      · subst h; exact Or.inr rfl
  | case4 =>
      intro x hx
      simp only [encChunk, List.not_mem_nil] at hx

/-- Every character of the wrapped base64 encoding is an alphabet character,
the padding sign or a newline. -/
theorem encodebytesAux_chars (fuel : Nat) :
    ∀ d, ∀ x ∈ encodebytesAux fuel d, x ∈ b64alphabet ∨ x = '=' ∨ x = '\n' := by
  induction fuel with
  | zero =>
      intro d x hx
      simp only [encodebytesAux, List.not_mem_nil] at hx
  | succ fuel ih =>
      intro d x hx
      cases d with
      | nil =>
          rw [encodebytesAux_nil] at hx
          cases hx
      | cons a t =>
          rw [show encodebytesAux (fuel + 1) (a :: t) =
            encChunk ((a :: t).take 57) ++ '\n' ::
              encodebytesAux fuel ((a :: t).drop 57) from rfl] at hx
          rcases List.mem_append.mp hx with h | h
          · rcases encChunk_chars _ x h with h' | h'
            · exact Or.inl h'
            · exact Or.inr (Or.inl h')
          · rcases List.mem_cons.mp h with h' | h'
            · exact Or.inr (Or.inr h')
            · exact ih _ x h'

theorem encodebytes_chars (d : List Nat) :
    ∀ x ∈ encodebytes d, x ∈ b64alphabet ∨ x = '=' ∨ x = '\n' :=
  encodebytesAux_chars d.length d

theorem lookup_cons_of_beq_true {a k : String} {b : JValue}
    {es : List (String × JValue)} (h : (a == k) = true) :
    List.lookup a ((k, b) :: es) = some b := by
  rw [List.lookup_cons, h]

theorem lookup_cons_of_beq_false {a k : String} {b : JValue}
    {es : List (String × JValue)} (h : (a == k) = false) :
    List.lookup a ((k, b) :: es) = List.lookup a es := by
  rw [List.lookup_cons, h]

/-- Looking a key up past a prefix that does not contain it. -/
theorem lookup_append_of_not_contains {k : String} :
    ∀ (d l : List (String × JValue)), (d.map Prod.fst).contains k = false →
      List.lookup k (d ++ l) = List.lookup k l := by
  intro d
  induction d with
  | nil => intro l _; rfl
  | cons kv d ih =>
      obtain ⟨k1, v1⟩ := kv
      intro l hc
      simp only [List.map_cons, List.contains_cons, Bool.or_eq_false_iff] at hc
      rw [List.cons_append, lookup_cons_of_beq_false hc.1, ih l hc.2]

/-- Looking up the key updated by the in-place branch of `dictSet`. -/
theorem lookup_mapSet (k : String) (v : JValue) :
    ∀ d : List (String × JValue),
      List.lookup k (d.map fun kv => if kv.1 = k then (kv.1, v) else kv) =
        if (d.map Prod.fst).contains k then some v else none := by
  intro d
  induction d with
  | nil => rfl
  | cons kv d ih =>
      obtain ⟨k1, v1⟩ := kv
      by_cases he : k1 = k
      · have hb : (k == k1) = true := by rw [beq_iff_eq]; exact he.symm
        simp only [List.map_cons, List.contains_cons, hb, Bool.true_or, if_true]
        rw [if_pos he]
        exact lookup_cons_of_beq_true hb
      · have hb : (k == k1) = false := by
          rw [beq_eq_false_iff_ne]
          exact fun h => he h.symm
        simp only [List.map_cons, List.contains_cons, hb, Bool.false_or]
        rw [if_neg he, lookup_cons_of_beq_false hb, ih]

/-- The updated dictionary always maps the set key to the new value. -/
theorem lookup_dictSet_self (d : List (String × JValue)) (k : String) (v : JValue) :
    List.lookup k (dictSet d k v) = some v := by
  rw [dictSet]
  by_cases hc : (d.map Prod.fst).contains k
  · rw [if_pos hc, lookup_mapSet, if_pos hc]
  · rw [if_neg hc, lookup_append_of_not_contains d _ (by simpa using hc)]
    exact lookup_cons_of_beq_true (by simp)

theorem lookup_mapSet_other (k k' : String) (v : JValue) (h : k' ≠ k) :
    ∀ d : List (String × JValue),
      List.lookup k' (d.map fun kv => if kv.1 = k then (kv.1, v) else kv) =
        List.lookup k' d := by
  intro d
  induction d with
  | nil => rfl
  | cons kv d ih =>
      obtain ⟨k1, v1⟩ := kv
      rw [List.map_cons]
      by_cases he : k1 = k
      · rw [if_pos he]
        have hb : (k' == k1) = false := by
          rw [beq_eq_false_iff_ne]
          intro hh
          exact h (hh.trans he)
        rw [lookup_cons_of_beq_false hb, lookup_cons_of_beq_false hb, ih]
      · rw [if_neg he]
        by_cases hb : (k' == k1) = true
        · rw [lookup_cons_of_beq_true hb, lookup_cons_of_beq_true hb]
        · have hb' : (k' == k1) = false := by
            revert hb
            cases k' == k1 <;> simp
          rw [lookup_cons_of_beq_false hb', lookup_cons_of_beq_false hb', ih]

theorem lookup_append_single_other (k k' : String) (v : JValue) (h : k' ≠ k) :
    ∀ d : List (String × JValue),
      List.lookup k' (d ++ [(k, v)]) = List.lookup k' d := by
  intro d
  induction d with
  | nil =>
      show List.lookup k' [(k, v)] = none
      have hb : (k' == k) = false := by
        rw [beq_eq_false_iff_ne]
        exact h
      rw [lookup_cons_of_beq_false hb]
      rfl
  | cons kv d ih =>
      obtain ⟨k1, v1⟩ := kv
      rw [List.cons_append]
      by_cases hb : (k' == k1) = true
      · rw [lookup_cons_of_beq_true hb, lookup_cons_of_beq_true hb]
      · have hb' : (k' == k1) = false := by
          revert hb
          cases k' == k1 <;> simp
        rw [lookup_cons_of_beq_false hb', lookup_cons_of_beq_false hb', ih]

/-- The updated dictionary leaves every other key unchanged. -/
theorem lookup_dictSet_other (d : List (String × JValue)) (k k' : String)
    (v : JValue) (h : k' ≠ k) :
    List.lookup k' (dictSet d k v) = List.lookup k' d := by
  rw [dictSet]
  by_cases hc : (d.map Prod.fst).contains k
  · rw [if_pos hc, lookup_mapSet_other k k' v h]
  · rw [if_neg hc, lookup_append_single_other k k' v h]

/-- Taking characters before the first newline of a marked concatenation
yields exactly the newline-free prefix. -/
theorem takeWhile_until_newline (l r : List Char) (h : '\n' ∉ l) :
    (l ++ '\n' :: r).takeWhile (fun c => c != '\n') = l := by
  induction l with
  | nil =>
      rw [List.nil_append, List.takeWhile_cons]
      norm_num
  | cons c l ih =>
      have hc : c ≠ '\n' := by
        intro he
        exact h (he ▸ List.mem_cons_self c l)
      have hp : (c != '\n') = true := by simp [bne_iff_ne, hc]
      rw [List.cons_append, List.takeWhile_cons, hp, if_pos rfl,
        ih (fun hm => h (List.mem_cons_of_mem c hm))]

/-! ## Branch lemmas for `print_osc` -/
/-- The inline branch of `print_osc`, taken when the encoded data fits. -/
theorem print_osc_inline {α : Type} (type : String) (encoder : α → List Nat)
    (data : α) (meta : Option (List (String × JValue))) (tmpName : String)
    (h : ¬(encoder data).length > SIZE_LIMIT) :
    print_osc type encoder data meta tmpName =
      { header := jsonDumps (.obj (dictSet (meta.getD []) "type" (.str type))),
        payload := String.mk (encodebytes (encoder data)),
        output := pyPrint (oscSequence
          (jsonDumps (.obj (dictSet (meta.getD []) "type" (.str type))))
          (String.mk (encodebytes (encoder data)))),
        files := [] } := by
  simp only [print_osc]
  rw [if_neg h]

/-- The spill branch of `print_osc`, taken when the encoded data is too big. -/
theorem print_osc_spill {α : Type} (type : String) (encoder : α → List Nat)
    (data : α) (meta : Option (List (String × JValue))) (tmpName : String)
    (h : (encoder data).length > SIZE_LIMIT) :
    print_osc type encoder data meta tmpName =
      { header := jsonDumps (.obj (dictSet (meta.getD []) "type" (.str type))),
        payload := "tmp" ++ pathAsUri tmpName,
        output := pyPrint (oscSequence
          (jsonDumps (.obj (dictSet (meta.getD []) "type" (.str type))))
          ("tmp" ++ pathAsUri tmpName)),
        files := [(tmpName, encoder data)] } := by
  simp only [print_osc]
  rw [if_pos h]

/-- The header of `print_osc` is the same on both branches. -/
theorem print_osc_header {α : Type} (type : String) (encoder : α → List Nat)
    (data : α) (meta : Option (List (String × JValue))) (tmpName : String) :
    (print_osc type encoder data meta tmpName).header =
      jsonDumps (.obj (dictSet (meta.getD []) "type" (.str type))) := by
  by_cases h : (encoder data).length > SIZE_LIMIT
  · rw [print_osc_spill type encoder data meta tmpName h]
  · rw [print_osc_inline type encoder data meta tmpName h]

/-- The full byte sequence `print_osc` writes to standard output, including
the newline appended by `print`. -/
theorem print_osc_output_eq {α : Type} (type : String) (encoder : α → List Nat)
    (data : α) (meta : Option (List (String × JValue))) (tmpName : String) :
    (print_osc type encoder data meta tmpName).output =
      "\x1b]5151;" ++ (print_osc type encoder data meta tmpName).header ++ "\n" ++
        (print_osc type encoder data meta tmpName).payload ++ "\x1b\\" ++ "\n" := by
  by_cases h : (encoder data).length > SIZE_LIMIT
  · rw [print_osc_spill type encoder data meta tmpName h]
    rfl
  · rw [print_osc_inline type encoder data meta tmpName h]
    rfl

/-- On ASCII input, UTF-8 encoding is the byte sequence of the code points. -/
theorem utf8Chars_ascii (cs : List Char) (h : ∀ c ∈ cs, c.toNat < 0x80) :
    utf8Chars cs = cs.map Char.toNat := by
  induction cs with
  | nil => rfl
  | cons c cs ih =>
      have hc : c.toNat < 0x80 := h c (by simp)
      rw [show utf8Chars (c :: cs) = utf8Char c ++ utf8Chars cs from rfl,
        utf8Char, if_pos hc, ih (fun x hx => h x (by simp [hx])), List.map_cons,
        List.cons_append, List.nil_append]

theorem map_ofNat_toNat (cs : List Char) :
    (cs.map Char.toNat).map Char.ofNat = cs := by
  induction cs with
  | nil => rfl
  | cons c cs ih => simp [Char.ofNat_toNat, ih]

/-- The wrapped base64 encoding consists of ASCII characters only. -/
theorem encodebytes_ascii (d : List Nat) :
    ∀ c ∈ encodebytes d, c.toNat < 0x80 := by
  intro c hc
  have halpha : ∀ x ∈ b64alphabet, x.toNat < 0x80 := by decide
  rcases encodebytes_chars d c hc with h | h | h
  · exact halpha c h
  · subst h; decide
  · subst h; decide

/-! ## The claims -/
/-- C1: for every byte payload whose encoded length is at most `SIZE_LIMIT`
(4000), `print_osc` takes the inline branch (no temporary file) and the
emitted payload is the wrapped `base64.encodebytes` rendering of the encoder
output, so that standard base64 decoding of the payload yields exactly the
encoded input bytes. -/
theorem claim_C1 {α : Type} (type : String) (encoder : α → List Nat) (data : α)
    (meta : Option (List (String × JValue))) (tmpName : String)
    (hbytes : ∀ b ∈ encoder data, b < 256)
    (hlen : (encoder data).length ≤ SIZE_LIMIT) :
    (print_osc type encoder data meta tmpName).files = [] ∧
    (print_osc type encoder data meta tmpName).payload =
      String.mk (encodebytes (encoder data)) ∧
    b64decode (print_osc type encoder data meta tmpName).payload.data =
      encoder data := by
  rw [print_osc_inline type encoder data meta tmpName (by omega)]
  refine ⟨rfl, rfl, ?_⟩
  show b64decode (encodebytes (encoder data)) = encoder data
  exact b64decode_encodebytes _ hbytes

theorem claim_C1_witness :
    ((∀ b ∈ strEncode "hi", b < 256) ∧ (strEncode "hi").length ≤ SIZE_LIMIT) ∧
    ((print_osc "text/html" strEncode "hi" none "/tmp/x").files = [] ∧
     (print_osc "text/html" strEncode "hi" none "/tmp/x").payload =
       String.mk (encodebytes (strEncode "hi")) ∧
     b64decode (print_osc "text/html" strEncode "hi" none "/tmp/x").payload.data =
       strEncode "hi") :=
  ⟨⟨by decide, by decide⟩,
    claim_C1 "text/html" strEncode "hi" none "/tmp/x" (by decide) (by decide)⟩

/-- C2 (amended): every `print_osc` call writes exactly
`ESC ]5151;` + header + LF + payload + `ESC \`, followed by one trailing
newline, because the f-string is passed to `print`, whose default line
terminator appends `\n` after the `ESC \` terminator. -/
theorem claim_C2 {α : Type} (type : String) (encoder : α → List Nat) (data : α)
    (meta : Option (List (String × JValue))) (tmpName : String) :
    (print_osc type encoder data meta tmpName).output =
      "\x1b]5151;" ++ (print_osc type encoder data meta tmpName).header ++ "\n" ++
        (print_osc type encoder data meta tmpName).payload ++ "\x1b\\" ++ "\n" :=
  print_osc_output_eq type encoder data meta tmpName

/-- C2 fails as stated: at a concrete call the bytes written to standard
output are the claimed sequence plus a trailing newline, hence not equal to
the sequence the claim describes. -/
theorem claim_C2_counterexample :
    (print_osc "text/html" strEncode "" none "/tmp/x").output ≠
      specEmitSequence (print_osc "text/html" strEncode "" none "/tmp/x").header
        (print_osc "text/html" strEncode "" none "/tmp/x").payload ∧
    (print_osc "text/html" strEncode "" none "/tmp/x").output =
      specEmitSequence (print_osc "text/html" strEncode "" none "/tmp/x").header
        (print_osc "text/html" strEncode "" none "/tmp/x").payload ++ "\n" := by
  exact ⟨by decide, rfl⟩

/-- C3: when the encoded data exceeds `SIZE_LIMIT`, `print_osc` writes the
bytes verbatim to the fresh temporary file (and to nothing else; the file is
not deleted), and the payload is the 3-character prefix `tmp` followed by the
file URI of that path. -/
theorem claim_C3 {α : Type} (type : String) (encoder : α → List Nat) (data : α)
    (meta : Option (List (String × JValue))) (tmpName : String)
    (hlen : (encoder data).length > SIZE_LIMIT) :
    (print_osc type encoder data meta tmpName).payload =
      "tmp" ++ pathAsUri tmpName ∧
    (∃ tail, pathAsUri tmpName = "file://" ++ tail) ∧
    (print_osc type encoder data meta tmpName).files =
      [(tmpName, encoder data)] := by
  rw [print_osc_spill type encoder data meta tmpName hlen]
  exact ⟨rfl, ⟨_, rfl⟩, rfl⟩

theorem claim_C3_witness :
    ((fun b : List Nat => b) (List.replicate 4001 0)).length > SIZE_LIMIT ∧
    ((print_osc "image/png" (fun b : List Nat => b) (List.replicate 4001 0)
        none "/tmp/tmp123").payload = "tmp" ++ pathAsUri "/tmp/tmp123" ∧
     (∃ tail, pathAsUri "/tmp/tmp123" = "file://" ++ tail) ∧
     (print_osc "image/png" (fun b : List Nat => b) (List.replicate 4001 0)
        none "/tmp/tmp123").files = [("/tmp/tmp123", (fun b : List Nat => b)
          (List.replicate 4001 0))]) :=
  ⟨by simp only [List.length_replicate, SIZE_LIMIT]; omega,
    claim_C3 "image/png" (fun b : List Nat => b) (List.replicate 4001 0)
      none "/tmp/tmp123" (by simp only [List.length_replicate, SIZE_LIMIT]; omega)⟩

/-- C4: the emitted header is the JSON rendering of the metadata dictionary
updated with the requested content type; parsed back it contains `"type"`
bound to the requested type, overriding any `"type"` the metadata supplied,
and every other metadata key is preserved. -/
theorem claim_C4 {α : Type} (type : String) (encoder : α → List Nat) (data : α)
    (meta : Option (List (String × JValue))) (tmpName : String) :
    (print_osc type encoder data meta tmpName).header =
      jsonDumps (.obj (dictSet (meta.getD []) "type" (.str type))) ∧
    jsonParse (print_osc type encoder data meta tmpName).header =
      some (.obj (dictSet (meta.getD []) "type" (.str type))) ∧
    List.lookup "type" (dictSet (meta.getD []) "type" (.str type)) =
      some (.str type) ∧
    (∀ k, k ≠ "type" → List.lookup k (dictSet (meta.getD []) "type" (.str type)) =
      List.lookup k (meta.getD [])) := by
  have hh := print_osc_header type encoder data meta tmpName
  refine ⟨hh, ?_, lookup_dictSet_self _ _ _,
    fun k hk => lookup_dictSet_other _ _ _ _ hk⟩
  rw [hh]
  exact jsonParse_jsonDumps _

theorem claim_C4_witness :
    ("a" : String) ≠ "type" ∧
    List.lookup "a" (dictSet ((some [("type", JValue.str "spoof"),
        ("a", JValue.int 1)] : Option (List (String × JValue))).getD [])
      "type" (JValue.str "text/html")) =
      List.lookup "a" ((some [("type", JValue.str "spoof"),
        ("a", JValue.int 1)] : Option (List (String × JValue))).getD []) :=
  ⟨by decide,
    (claim_C4 "text/html" strEncode "x"
      (some [("type", JValue.str "spoof"), ("a", JValue.int 1)])
      "/t").2.2.2 "a" (by decide)⟩

/-- C5 evaluated on the code: `configure("bogus")` enables none of the five
content types, yet the printed line is the `enabled for` confirmation with an
empty tag list, not the `disabled` notice: the `if types:` test sees the
nonempty list `["bogus"]`, so the `disabled` branch is unreachable for any
`;`-separated selection. -/
theorem claim_C5 :
    setupEnabled "bogus" = MIME_TYPES_KEYS.map (fun m => (m, false)) ∧
    setupMessage "bogus" = "`comint-mime' enabled for " ∧
    setupMessage "bogus" ≠ "`comint-mime' disabled" :=
  ⟨rfl, rfl, by decide⟩

/-- C6: `configure("all")` enables every one of the five fixed tags,
`configure("text/html;application/json")` enables exactly those two; in
general the flag table has exactly the five fixed tags (so unknown selection
entries are ignored silently) and each tag is enabled iff it occurs in the
normalised selection, where the sentinel `"all"` selects every tag. -/
theorem claim_C6 :
    setupEnabled "all" = MIME_TYPES_KEYS.map (fun m => (m, true)) ∧
    setupEnabled "text/html;application/json" =
      [("image/png", false), ("image/jpeg", false), ("text/latex", false),
        ("text/html", true), ("application/json", true)] ∧
    (∀ s : String, (setupEnabled s).map Prod.fst = MIME_TYPES_KEYS) ∧
    (∀ s : String, ∀ m ∈ MIME_TYPES_KEYS,
      List.lookup m (setupEnabled s) = some ((setupSelection s).contains m)) ∧
    (∀ m ∈ MIME_TYPES_KEYS, (setupSelection "all").contains m = true) := by
  refine ⟨rfl, rfl, ?_, ?_, ?_⟩
  · intro s
    simp [setupEnabled, MIME_TYPES_KEYS]
  · intro s m hm
    simp only [MIME_TYPES_KEYS, List.mem_cons, List.not_mem_nil, or_false] at hm
    rcases hm with h | h | h | h | h <;> subst h <;> rfl
  · intro m hm
    show MIME_TYPES_KEYS.contains m = true
    simpa using hm

theorem claim_C6_witness :
    ("text/latex" : String) ∈ MIME_TYPES_KEYS ∧
    List.lookup "text/latex" (setupEnabled "x;text/latex") =
      some ((setupSelection "x;text/latex").contains "text/latex") :=
  ⟨by decide, claim_C6.2.2.2.1 "x;text/latex" "text/latex" (by decide)⟩

/-- C7: the `application/json` encoder serializes a JSON value to UTF-8
bytes whose decode and parse recover the value, and the concrete emission of
`{"a": 1}` round-trips through base64 decoding, UTF-8 decoding and JSON
parsing back to `{"a": 1}`. -/
theorem claim_C7 :
    (∀ v : JValue, jsonParse (jsonDumps v) = some v) ∧
    (∀ v : JValue, (utf8Decode (jsonEncoder v)).bind
      (fun cs => jsonParse (String.mk cs)) = some v) ∧
    (∀ tmpName : String,
      (utf8Decode (b64decode (print_osc "application/json" jsonEncoder
          (JValue.obj [("a", JValue.int 1)]) none tmpName).payload.data)).bind
        (fun cs => jsonParse (String.mk cs)) =
      some (JValue.obj [("a", JValue.int 1)])) := by
  refine ⟨jsonParse_jsonDumps, ?_, ?_⟩
  · intro v
    have hascii : ∀ c ∈ (jsonDumps v).data, c.toNat < 0x80 :=
      fun c hc => (dumpsVal_printable v c hc).2
    rw [show jsonEncoder v = utf8Chars (jsonDumps v).data from rfl,
      utf8Decode_ascii _ hascii, Option.some_bind]
    show jsonParse (String.mk (jsonDumps v).data) = some v
    rw [show String.mk (jsonDumps v).data = jsonDumps v from rfl]
    exact jsonParse_jsonDumps v
  · intro tmpName
    rfl

/-- C8: the image encoders are the identity on byte input; on text input
they base64-decode the UTF-8 bytes of the text back to bytes, so a payload
the host already base64-encoded is restored exactly. -/
theorem claim_C8 :
    (∀ b : List Nat, encoding_workaround (.bytes b) = b) ∧
    (∀ s : String, encoding_workaround (.str s) = decodebytes (strEncode s)) ∧
    (∀ b : List Nat, (∀ x ∈ b, x < 256) →
      encoding_workaround (.str (String.mk (encodebytes b))) = b) := by
  refine ⟨fun b => rfl, fun s => rfl, fun b hb => ?_⟩
  show decodebytes (strEncode (String.mk (encodebytes b))) = b
  rw [show strEncode (String.mk (encodebytes b)) =
    utf8Chars (encodebytes b) from rfl]
  rw [utf8Chars_ascii _ (encodebytes_ascii b), decodebytes, map_ofNat_toNat]
  exact b64decode_encodebytes b hb

theorem claim_C8_witness :
    (∀ x ∈ [104, 105], x < 256) ∧
    encoding_workaround (.str (String.mk (encodebytes [104, 105]))) =
      [104, 105] :=
  ⟨by decide, claim_C8.2.2 [104, 105] (by decide)⟩

/-- C9: the emitted header text contains no literal newline (control
characters are escaped by the JSON encoder), so dropping the 7-byte
`ESC ]5151;` prefix and reading up to the first LF recovers exactly the
header for any parser of the wire format. -/
theorem claim_C9 {α : Type} (type : String) (encoder : α → List Nat) (data : α)
    (meta : Option (List (String × JValue))) (tmpName : String) :
    '\n' ∉ (print_osc type encoder data meta tmpName).header.data ∧
    (((print_osc type encoder data meta tmpName).output.data.drop 7).takeWhile
      (fun c => c != '\n')) =
      (print_osc type encoder data meta tmpName).header.data := by
  have hh := print_osc_header type encoder data meta tmpName
  have hnl : '\n' ∉ (print_osc type encoder data meta tmpName).header.data := by
    rw [hh]
    show '\n' ∉ dumpsVal _
    exact dumpsVal_no_newline _
  refine ⟨hnl, ?_⟩
  rw [print_osc_output_eq type encoder data meta tmpName,
    String.data_append, String.data_append, String.data_append,
    String.data_append, String.data_append]
  simp only [List.append_assoc]
  rw [show (7 : Nat) =
      (['\x1b', ']', '5', '1', '5', '1', ';'] : List Char).length from rfl,
    List.drop_left]
  simp only [List.cons_append, List.nil_append]
  exact takeWhile_until_newline _ _ hnl

/-- C10: on the inline branch the payload contains only base64 alphabet
characters, padding signs and newlines; in particular the ESC byte never
occurs in it, so the `ESC \` terminator cannot appear inside an inline
payload. -/
theorem claim_C10 {α : Type} (type : String) (encoder : α → List Nat) (data : α)
    (meta : Option (List (String × JValue))) (tmpName : String)
    (hlen : (encoder data).length ≤ SIZE_LIMIT) :
    (∀ c ∈ (print_osc type encoder data meta tmpName).payload.data,
      c ∈ b64alphabet ∨ c = '=' ∨ c = '\n') ∧
    '\x1b' ∉ (print_osc type encoder data meta tmpName).payload.data := by
  rw [print_osc_inline type encoder data meta tmpName (by omega)]
  constructor
  · show ∀ c ∈ encodebytes (encoder data), _
    exact encodebytes_chars _
  · intro hmem
    have h := encodebytes_chars (encoder data) '\x1b' hmem
    rcases h with h | h | h
    · exact absurd h (by decide)
    · exact absurd h (by decide)
    · exact absurd h (by decide)

theorem claim_C10_witness :
    (strEncode "hi").length ≤ SIZE_LIMIT ∧
    ((∀ c ∈ (print_osc "text/html" strEncode "hi" none "/tmp/x").payload.data,
        c ∈ b64alphabet ∨ c = '=' ∨ c = '\n') ∧
      '\x1b' ∉ (print_osc "text/html" strEncode "hi" none "/tmp/x").payload.data) :=
  ⟨by decide, claim_C10 "text/html" strEncode "hi" none "/tmp/x" (by decide)⟩

end ComintMime

